import Mathlib

/-!
Verification development for the agent-file toolkit
(frontmatter parser/serializer, schema validator, version compatibility
engine, in-memory search engine).

The TypeScript sources are embedded shallowly: JS `Map`/`Set` become
insertion-ordered association lists / duplicate-free lists, JS numbers that
are used as integers become `Nat`/`Int`, fractional config values become
`Rat`, fallible operations return `Option`/`Except`, and JS truthiness is
spelled out explicitly at each use site.
-/

namespace AgentSpec

/-! ## String and character utilities (JS semantics) -/

/-- JS `String.prototype.toLowerCase`, modelled character-wise
(agrees with JS on ASCII, which is all the code relies on). -/
def jsToLower (s : String) : String := String.mk (s.data.map Char.toLower)

/-- JS `\s` whitespace class, modelled by `Char.isWhitespace`. -/
def isWsChar (c : Char) : Bool := c.isWhitespace

/-- Split a character list at every character satisfying `p`, keeping empty
pieces (so `n` separators yield `n+1` pieces). -/
def splitOnP (p : Char → Bool) : List Char → List (List Char)
  | [] => [[]]
  | c :: cs =>
    match splitOnP p cs with
    | [] => [[c]]
    | h :: t => if p c then [] :: h :: t else (c :: h) :: t

/-- JS `str.split(/\s+/)`: runs of whitespace collapse to one separator,
but a leading/trailing run still produces an empty boundary piece, and the
empty string yields `[""]`. -/
def jsSplitWs (s : String) : List String :=
  let pieces := splitOnP isWsChar s.data
  match pieces with
  | [] => [""]
  | [x] => [String.mk x]
  | x :: rest =>
    let mid := rest.dropLast
    let last := rest.getLastD []
    String.mk x :: ((mid.filter (· ≠ [])).map String.mk ++ [String.mk last])

/-- Does `sub` occur as a contiguous run inside `hay`? (JS
`String.prototype.includes`, on character lists.) -/
def listIncludes (hay sub : List Char) : Bool :=
  if sub.isPrefixOf hay then true
  else
    match hay with
    | [] => false
    | _ :: t => listIncludes t sub

/-- JS `hay.includes(sub)` for strings. -/
def jsIncludes (hay sub : String) : Bool := listIncludes hay.data sub.data

/-- Drop leading whitespace from a character list. -/
def dropLeadingWs (cs : List Char) : List Char := cs.dropWhile isWsChar

/-- Drop trailing whitespace from a character list. -/
def dropTrailingWs (cs : List Char) : List Char :=
  ((cs.reverse).dropWhile isWsChar).reverse

/-- JS `String.prototype.trim` on character lists. -/
def jsTrimChars (cs : List Char) : List Char := dropLeadingWs (dropTrailingWs cs)

/-- JS `String.prototype.trim`. -/
def jsTrim (s : String) : String := String.mk (jsTrimChars s.data)

/-- JS string falsiness for an optional string (absent or `""`). -/
def jsFalsyStr (o : Option String) : Bool :=
  match o with
  | none => true
  | some s => s = ""

/-- `Array.prototype.slice(start, stop)` for `0 ≤ start ≤ stop`. -/
def jsSlice (l : List α) (start stop : Nat) : List α :=
  (l.drop start).take (stop - start)

/-- `[...new Set(arr)]`: keep the first occurrence of each element,
in insertion order. -/
def jsSetDedup (l : List String) : List String :=
  l.foldl (fun acc x => if acc.contains x then acc else acc ++ [x]) []

/-- Insert `x` into `l` before the first element `y` with `le x y`. -/
def insertBy (le : α → α → Bool) (x : α) : List α → List α
  | [] => [x]
  | y :: ys => if le x y then x :: y :: ys else y :: insertBy le x ys

/-- Insertion sort by a boolean comparison (the embedding of JS
`Array.prototype.sort(comparator)`; JS leaves tie order to the
implementation's stable order, which no claim depends on). -/
def insSortBy (le : α → α → Bool) : List α → List α
  | [] => []
  | x :: xs => insertBy le x (insSortBy le xs)

/-- Lexicographic order on character lists by code point. -/
def charListLe : List Char → List Char → Bool
  | [], _ => true
  | _ :: _, [] => false
  | a :: as, b :: bs =>
    if a < b then true else if b < a then false else charListLe as bs

/-- Default JS `Array.prototype.sort()` on strings: lexicographic by code
unit (agrees with code-point order on the ASCII data in play). -/
def jsSortStrings (l : List String) : List String :=
  insSortBy (fun a b => charListLe a.data b.data) l

/-- `[...new Set(arr)].sort()` — deduplicate and sort. -/
def dedupSort (l : List String) : List String := jsSortStrings (jsSetDedup l)

/-! ## Data model (src/types/agent.ts, src/validator/schema.ts)

The TS `AgentMetadata` is a typed record; YAML-decoded input is dynamic,
but every claim below concerns schema-conformant shapes, so fields are
embedded at their declared types (`Option` for optional fields, `Rat` for
fractional config values, `Int` for integer config values). -/

/-- `model_requirements` sub-object (closed object in the schema). -/
structure ModelRequirements where
  min_context : Option Int := none
  max_tokens : Option Int := none
  preferred_models : Option (List String) := none
  temperature : Option Rat := none
deriving DecidableEq, Repr

/-- `parameters` sub-object (open object; the `catchall` extra keys are
accepted unconditionally by the schema and inspected by no operation, so
they are not carried in the embedding). -/
structure Parameters where
  max_iterations : Option Int := none
  confidence_threshold : Option Rat := none
deriving DecidableEq, Repr

/-- The canonical agent metadata record. -/
structure AgentMetadata where
  name : String
  version : Option String := none
  description : Option String := none
  role : Option String := none
  specialization : Option String := none
  capabilities : Option (List String) := none
  coding_languages : Option (List String) := none
  frameworks : Option (List String) := none
  tools : Option (List String) := none
  technologies : Option (List String) := none
  industries : Option (List String) := none
  skills : Option (List String) := none
  domains : Option (List String) := none
  languages : Option (List String) := none
  model_requirements : Option ModelRequirements := none
  parameters : Option Parameters := none
  author : Option String := none
  organization : Option String := none
  email : Option String := none
  license : Option String := none
  created : Option String := none
  updated : Option String := none
  maintainers : Option (List String) := none
  tags : Option (List String) := none
  keywords : Option (List String) := none
  category : Option String := none
  subcategory : Option String := none
  use_cases : Option (List String) := none
  difficulty : Option String := none
  dependencies : Option (List String) := none
  integrations : Option (List String) := none
  apis : Option (List String) := none
  requires_internet : Option Bool := none
deriving DecidableEq, Repr

/-! ## `normalizeMetadata` (dist/utils/helpers.js lines 84–104) -/

/-- Normalize one optional array field: `[...new Set(arr)].sort()` when the
field is present. -/
def normArr (o : Option (List String)) : Option (List String) := o.map dedupSort

/-- Trim one optional string field (the source trims every string-valued
property of the object). -/
def normStr (o : Option String) : Option String := o.map jsTrim

/-- `normalizeMetadata`: dedup-sorts the twelve array fields listed in
`arrayFields`, then trims every string-valued property. -/
def normalizeMetadata (m : AgentMetadata) : AgentMetadata :=
  { m with
    capabilities := normArr m.capabilities
    coding_languages := normArr m.coding_languages
    frameworks := normArr m.frameworks
    tools := normArr m.tools
    technologies := normArr m.technologies
    industries := normArr m.industries
    skills := normArr m.skills
    domains := normArr m.domains
    languages := normArr m.languages
    tags := normArr m.tags
    keywords := normArr m.keywords
    use_cases := normArr m.use_cases
    name := jsTrim m.name
    version := normStr m.version
    description := normStr m.description
    role := normStr m.role
    specialization := normStr m.specialization
    author := normStr m.author
    organization := normStr m.organization
    email := normStr m.email
    license := normStr m.license
    created := normStr m.created
    updated := normStr m.updated
    category := normStr m.category
    subcategory := normStr m.subcategory
    difficulty := normStr m.difficulty }

/-! ## `checkModelCompatibility` (src/utils/version.ts lines 113–149) -/

/-- Result record of `checkModelCompatibility`. -/
structure ModelCompatResult where
  compatible : Bool
  issues : List String
deriving DecidableEq, Repr

/-- The preferred-models block of `checkModelCompatibility`, over the
(possibly absent) `model_requirements`.  JS truthiness: the block is
entered even for an empty `preferred_models` array (arrays are truthy). -/
def prefIssues (o : Option ModelRequirements) (availableModel : String) :
    List String :=
  match o with
  | none => []
  | some mr =>
    match mr.preferred_models with
    | none => []
    | some pms =>
      let isPreferred := pms.any fun model =>
        jsIncludes (jsToLower availableModel) (jsToLower model)
      if !isPreferred then
        ["Model " ++ availableModel ++ " is not in preferred models: " ++
          String.intercalate ", " pms]
      else []

/-- The context block of `checkModelCompatibility`.  JS truthiness: the
block is skipped when `min_context` is `0` (zero is falsy). -/
def ctxIssues (o : Option ModelRequirements) (availableContext : Int) :
    List String :=
  match o with
  | none => []
  | some mr =>
    match mr.min_context with
    | none => []
    | some mc =>
      if mc ≠ 0 then
        if availableContext < mc then
          ["Insufficient context: requires " ++ toString mc ++
            ", available " ++ toString availableContext]
        else []
      else []

/-- `VersionManager.checkModelCompatibility`. -/
def checkModelCompatibility (agent : AgentMetadata) (availableModel : String)
    (availableContext : Int) : ModelCompatResult :=
  let issues := prefIssues agent.model_requirements availableModel ++
    ctxIssues agent.model_requirements availableContext
  { compatible := issues.isEmpty, issues := issues }

/-! ## Semantic versions

`semver` is an npm dependency, not repository code, so its pieces used by
`VersionManager` (`clean`, `parse`, `major`, `lt`, `compare`, `satisfies`)
are modelled here from the spec's description of the version grammar and of
range satisfaction. -/

/-- A character allowed in prerelease/build identifiers: `[0-9A-Za-z-]`. -/
def idChar (c : Char) : Bool := c.isAlphanum || c = '-'

/-- Numeric value of a digit string. -/
def natOfDigits (ds : List Char) : Nat :=
  ds.foldl (fun n c => 10 * n + (c.toNat - 48)) 0

/-- Parse a semver numeric component (no leading zeros), returning the rest. -/
def parseNumComp (cs : List Char) : Option (Nat × List Char) :=
  let ds := cs.takeWhile Char.isDigit
  if ds.isEmpty then none
  else if decide (1 < ds.length) && (ds.head? == some '0') then none
  else some (natOfDigits ds, cs.drop ds.length)

/-- A prerelease identifier: numeric (compared numerically) or
alphanumeric (compared lexically). -/
inductive PreId where
  | num (n : Nat)
  | alnum (s : String)
deriving DecidableEq, Repr

/-- Parse one dot-separated prerelease identifier. -/
def parsePreId (cs : List Char) : Option PreId :=
  if cs.isEmpty then none
  else if cs.all Char.isDigit then
    if decide (1 < cs.length) && (cs.head? == some '0') then none
    else some (.num (natOfDigits cs))
  else if cs.all idChar then some (.alnum (String.mk cs))
  else none

/-- Parse one dot-separated build identifier (`[0-9A-Za-z-]+`). -/
def parseBuildId (cs : List Char) : Option String :=
  if !cs.isEmpty && cs.all idChar then some (String.mk cs) else none

/-- Modelled from the spec: a parsed semantic version
`MAJOR.MINOR.PATCH[-prerelease][+build]`. -/
structure Semver where
  major : Nat
  minor : Nat
  patch : Nat
  prerelease : List PreId := []
  build : List String := []
deriving DecidableEq, Repr

/-- Modelled from the spec: strict semantic-version syntax (the grammar of
the schema's `semverRegex` and of `semver.parse`). -/
def parseSemverChars (cs : List Char) : Option Semver :=
  match parseNumComp cs with
  | none => none
  | some (maj, r1) =>
    match r1 with
    | '.' :: r2 =>
      match parseNumComp r2 with
      | none => none
      | some (minr, r3) =>
        match r3 with
        | '.' :: r4 =>
          match parseNumComp r4 with
          | none => none
          | some (pat, r5) =>
            let (preChars, r6) :=
              match r5 with
              | '-' :: t => (some (t.takeWhile (· ≠ '+')), t.dropWhile (· ≠ '+'))
              | _ => (none, r5)
            let pre : Option (List PreId) :=
              match preChars with
              | none => some []
              | some pcs => (splitOnP (· = '.') pcs).mapM parsePreId
            let build : Option (List String) :=
              match r6 with
              | [] => some []
              | '+' :: bcs => (splitOnP (· = '.') bcs).mapM parseBuildId
              | _ => none
            match pre, build with
            | some p, some b =>
              if preChars.isNone || r6.isEmpty || (r6.head? == some '+') then
                some { major := maj, minor := minr, patch := pat, prerelease := p, build := b }
              else none
            | _, _ => none
        | _ => none
    | _ => none

/-- Is `s` strict semver syntax (the schema's `semverRegex`)? -/
def semverValid (s : String) : Bool := (parseSemverChars s.data).isSome

/-- Modelled from the spec: `semver.clean` — trim, strip a leading run of
`=`/`v`, then strict parse. -/
def semverClean (s : String) : Option Semver :=
  parseSemverChars ((jsTrimChars s.data).dropWhile (fun c => c = '=' || c = 'v'))

/-- Compare prerelease identifiers: numeric < alphanumeric;
numerics numerically, alphanumerics lexically. -/
def preIdCompare : PreId → PreId → Ordering
  | .num a, .num b => compare a b
  | .num _, .alnum _ => .lt
  | .alnum _, .num _ => .gt
  | .alnum a, .alnum b => compare a b

/-- Compare prerelease identifier lists element-wise; a strict prefix is
smaller. -/
def preListCompare : List PreId → List PreId → Ordering
  | [], [] => .eq
  | [], _ :: _ => .lt
  | _ :: _, [] => .gt
  | a :: as, b :: bs =>
    match preIdCompare a b with
    | .eq => preListCompare as bs
    | o => o

/-- Modelled from the spec: standard semver ordering (build metadata
ignored; a version with a prerelease precedes the same release). -/
def svCompare (p q : Semver) : Ordering :=
  (compare p.major q.major).then <|
    (compare p.minor q.minor).then <|
      (compare p.patch q.patch).then <|
        match p.prerelease, q.prerelease with
        | [], [] => .eq
        | [], _ :: _ => .gt
        | _ :: _, [] => .lt
        | a, b => preListCompare a b

/-- `semver.lt`. -/
def svLt (p q : Semver) : Bool := svCompare p q == .lt

/-- `p ≤ q` on semvers. -/
def svLe (p q : Semver) : Bool := !(svCompare p q == .gt)

/-- Equal release triple. -/
def tripleEq (p q : Semver) : Bool :=
  p.major == q.major && p.minor == q.minor && p.patch == q.patch

/-- Range comparator operator. -/
inductive RangeOp where
  | caret | tilde | ge | gt | le | lt | eq
deriving DecidableEq, Repr

/-- Comparator check against range version `rv` for operator `op`. -/
def rangeOpCheck (p rv : Semver) : RangeOp → Bool
  | .caret =>
    svLe rv p &&
      (if 0 < rv.major then p.major == rv.major
       else if 0 < rv.minor then p.major == 0 && p.minor == rv.minor
       else p.major == 0 && p.minor == 0 && p.patch == rv.patch)
  | .tilde => svLe rv p && p.major == rv.major && p.minor == rv.minor
  | .ge => svLe rv p
  | .gt => svLt rv p
  | .le => svLe p rv
  | .lt => svLt p rv
  | .eq => svCompare p rv == .eq

/-- Modelled from the spec: node-semver range satisfaction, embedded for
single-comparator ranges (exact, `^`, `~`, `>=`, `>`, `<=`, `<`, `=`) —
the only range shapes the compatibility engine and the spec's examples
exercise.  A version carrying a prerelease satisfies a range only if the
comparator names a prerelease of the same release triple. -/
def svSatisfies (p : Semver) (range : String) : Bool :=
  let cs := jsTrimChars range.data
  let (op, restChars) : RangeOp × List Char :=
    match cs with
    | '^' :: t => (.caret, t)
    | '~' :: t => (.tilde, t)
    | '>' :: '=' :: t => (.ge, t)
    | '<' :: '=' :: t => (.le, t)
    | '>' :: t => (.gt, t)
    | '<' :: t => (.lt, t)
    | t => (.eq, t)
  match parseSemverChars (restChars.dropWhile (fun c => c = '=' || c = 'v')) with
  | none => false
  | some rv =>
    if !p.prerelease.isEmpty && (rv.prerelease.isEmpty || !tripleEq p rv) then false
    else rangeOpCheck p rv op

/-! ## `checkCompatibility` (src/utils/version.ts lines 21–70) -/

/-- Result record of `checkCompatibility`. -/
structure VersionCompatibility where
  compatible : Bool
  reason : Option String := none
  suggestedVersion : Option String := none
deriving DecidableEq, Repr

/-- `VersionManager.checkCompatibility`: clean both inputs; if either fails
to clean, invalid format; else range satisfaction, then the major-mismatch
shortcut, then the plain less-than comparison. -/
def checkCompatibility (requiredVersion providedVersion : String) :
    VersionCompatibility :=
  match semverClean requiredVersion, semverClean providedVersion with
  | some cleanRequired, some cleanProvided =>
    if svSatisfies cleanProvided requiredVersion then
      { compatible := true }
    else if cleanRequired.major ≠ cleanProvided.major then
      { compatible := false
        reason := some ("Major version mismatch: required v" ++
          toString cleanRequired.major ++ ", provided v" ++
          toString cleanProvided.major)
        suggestedVersion := some (toString cleanRequired.major ++ ".x.x") }
    else if svLt cleanProvided cleanRequired then
      { compatible := false
        reason := some ("Version too old: required " ++ requiredVersion ++
          ", provided " ++ providedVersion)
        suggestedVersion := some requiredVersion }
    else
      { compatible := true }
  | _, _ =>
    { compatible := false, reason := some "Invalid version format" }

/-! ## Schema validation (src/validator/schema.ts, parser/index.js
`AgentParser.validate`) -/

/-- A blocking validation error (dotted field path + message). -/
structure ValidationError where
  field : String
  message : String
deriving DecidableEq, Repr

/-- An advisory validation warning. -/
structure ValidationWarning where
  field : String
  message : String
  suggestion : String
deriving DecidableEq, Repr

/-- The validator's result record. -/
structure ValidationResult where
  valid : Bool
  errors : List ValidationError
  warnings : List ValidationWarning
deriving DecidableEq, Repr

/-- A character allowed in the local part of a zod email (`[A-Z0-9_'+\-.]`,
case-insensitive). -/
def emailLocalChar (c : Char) : Bool :=
  c.isAlphanum || c = '_' || c = '\x27' || c = '+' || c = '-' || c = '.'

/-- A character allowed as the final local-part character (`[A-Z0-9_+-]`). -/
def emailLocalEndChar (c : Char) : Bool :=
  c.isAlphanum || c = '_' || c = '+' || c = '-'

/-- Does `".."` occur in the character list? -/
def hasDotDot : List Char → Bool
  | '.' :: '.' :: _ => true
  | _ :: t => hasDotDot t
  | [] => false

/-- One pre-TLD domain label: `[A-Z0-9][A-Z0-9-]*`. -/
def emailLabelOk (cs : List Char) : Bool :=
  match cs with
  | [] => false
  | c :: t => c.isAlphanum && t.all (fun d => d.isAlphanum || d = '-')

/-- `z.string().email()`: zod's email regex — a non-empty local part over
its charset, not starting with `.`, without `..`, ending in `[A-Z0-9_+-]`,
then `@`, then one or more `[A-Z0-9][A-Z0-9-]*` labels and an alphabetic
TLD of length ≥ 2. -/
def emailValid (s : String) : Bool :=
  match splitOnP (· = '@') s.data with
  | [localPart, domain] =>
    (match localPart with
     | [] => false
     | c :: _ =>
       c ≠ '.' && !hasDotDot localPart && localPart.all emailLocalChar &&
         (match localPart.getLast? with
          | some lastC => emailLocalEndChar lastC
          | none => false)) &&
    (match (splitOnP (· = '.') domain).reverse with
     | tld :: labels =>
       decide (2 ≤ tld.length) && tld.all Char.isAlpha &&
         !labels.isEmpty && labels.all emailLabelOk
     | [] => false)
  | _ => false

/-- `z.string().datetime()`: zod's ISO-8601 UTC pattern
`\d{4}-\d{2}-\d{2}T\d{2}:\d{2}:\d{2}(\.\d+)?Z`. -/
def iso8601Valid (s : String) : Bool :=
  match s.data with
  | y1 :: y2 :: y3 :: y4 :: '-' :: m1 :: m2 :: '-' :: d1 :: d2 :: 'T' ::
      h1 :: h2 :: ':' :: n1 :: n2 :: ':' :: s1 :: s2 :: rest =>
    [y1, y2, y3, y4, m1, m2, d1, d2, h1, h2, n1, n2, s1, s2].all Char.isDigit &&
      (match rest with
       | ['Z'] => true
       | '.' :: frac =>
         match frac.reverse with
         | 'Z' :: revDigits => !revDigits.isEmpty && revDigits.all Char.isDigit
         | _ => false
       | _ => false)
  | _ => false

/-- Schema errors for the nested `model_requirements` object
(`min_context`/`max_tokens` positive ints, `temperature` in `[0, 2]`). -/
def modelRequirementsErrors (mr : ModelRequirements) : List ValidationError :=
  (match mr.min_context with
   | some c =>
     if c ≤ 0 then
       [{ field := "model_requirements.min_context",
          message := "Number must be greater than 0" }]
     else []
   | none => []) ++
  (match mr.max_tokens with
   | some c =>
     if c ≤ 0 then
       [{ field := "model_requirements.max_tokens",
          message := "Number must be greater than 0" }]
     else []
   | none => []) ++
  (match mr.temperature with
   | some t =>
     (if t < 0 then
       [{ field := "model_requirements.temperature",
          message := "Number must be greater than or equal to 0" }]
      else []) ++
     (if 2 < t then
       [{ field := "model_requirements.temperature",
          message := "Number must be less than or equal to 2" }]
      else [])
   | none => [])

/-- Schema errors for the nested `parameters` object. -/
def parametersErrors (p : Parameters) : List ValidationError :=
  (match p.max_iterations with
   | some c =>
     if c ≤ 0 then
       [{ field := "parameters.max_iterations",
          message := "Number must be greater than 0" }]
     else []
   | none => []) ++
  (match p.confidence_threshold with
   | some t =>
     (if t < 0 then
       [{ field := "parameters.confidence_threshold",
          message := "Number must be greater than or equal to 0" }]
      else []) ++
     (if 1 < t then
       [{ field := "parameters.confidence_threshold",
          message := "Number must be less than or equal to 1" }]
      else [])
   | none => [])

/-- All errors produced by `AgentFrontmatterSchema.safeParse({agent: m})`
(after the code strips the leading `agent` path segment), in shape order.
Fields whose declared type admits no violation contribute nothing. -/
def schemaFieldErrors (m : AgentMetadata) : List ValidationError :=
  (if m.name = "" then
    [{ field := "name", message := "Agent name is required" }]
   else []) ++
  (match m.version with
   | some v =>
     if semverValid v then []
     else [{ field := "version",
             message := "Version must be valid semantic versioning (e.g., 1.0.0, 2.1.0-beta)" }]
   | none => []) ++
  (match m.model_requirements with
   | some mr => modelRequirementsErrors mr
   | none => []) ++
  (match m.parameters with
   | some p => parametersErrors p
   | none => []) ++
  (match m.email with
   | some e => if emailValid e then [] else [{ field := "email", message := "Invalid email" }]
   | none => []) ++
  (match m.created with
   | some d =>
     if iso8601Valid d then []
     else [{ field := "created", message := "Date must be in ISO 8601 format" }]
   | none => []) ++
  (match m.updated with
   | some d =>
     if iso8601Valid d then []
     else [{ field := "updated", message := "Date must be in ISO 8601 format" }]
   | none => []) ++
  (match m.difficulty with
   | some d =>
     if d = "beginner" || d = "intermediate" || d = "advanced" then []
     else [{ field := "difficulty",
             message := "Invalid enum value. Expected \x27beginner\x27 | \x27intermediate\x27 | \x27advanced\x27, received \x27" ++ d ++ "\x27" }]
   | none => [])

/-- The advisory warnings of `AgentParser.validate` (JS truthiness: a
missing or empty string counts as absent). -/
def validateWarnings (m : AgentMetadata) : List ValidationWarning :=
  (if jsFalsyStr m.version then
    [{ field := "version",
       message := "Version field is strongly recommended for collaboration",
       suggestion := "Add version: \"1.0.0\" to track changes" }]
   else []) ++
  (if jsFalsyStr m.description then
    [{ field := "description",
       message := "Description helps users understand the agent purpose",
       suggestion := "Add a brief description of what this agent does" }]
   else []) ++
  (if jsFalsyStr m.author && jsFalsyStr m.organization then
    [{ field := "author",
       message := "Author or organization helps with attribution",
       suggestion := "Add author name or organization" }]
   else []) ++
  (match m.capabilities with
   | some caps =>
     if caps.isEmpty then
       [{ field := "capabilities",
          message := "Empty capabilities array provides no value",
          suggestion := "Add specific capabilities or remove the field" }]
     else []
   | none => [])

/-- The try-block of `AgentParser.validate`.  The input models
`agentFile.metadata`, which is dynamically typed in JS: `none` models a
null/undefined metadata value.  In that case `safeParse` records one error
(path `['agent']`, stripped to the empty field path) and the subsequent
`agentFile.metadata.version` access throws a `TypeError`, carried here as
`Except.error` together with the errors accumulated so far. -/
def validateTry (metadata : Option AgentMetadata) :
    Except (List ValidationError) ValidationResult :=
  let errors :=
    match metadata with
    | none => [{ field := "", message := "Required" }]
    | some m => schemaFieldErrors m
  match metadata with
  | none => .error errors
  | some m =>
    .ok { valid := errors.isEmpty, errors := errors, warnings := validateWarnings m }

/-- `AgentParser.validate`: the try-block above, with any thrown failure
caught and converted into one generic error on field `agent`. -/
def validate (metadata : Option AgentMetadata) : ValidationResult :=
  match validateTry metadata with
  | .ok r => r
  | .error errs =>
    { valid := false
      errors := errs ++
        [{ field := "agent",
           message := "Cannot read properties of null (reading \x27version\x27)" }]
      warnings := [] }

/-! ## Search index and engine (dist/search/index.js)

JS `Map`s become insertion-ordered association lists and JS `Set`s become
duplicate-free lists in insertion order. -/

/-- `Map.set`: replace in place if the key exists, else append. -/
def mapSet (m : List (String × α)) (k : String) (v : α) : List (String × α) :=
  if m.any (·.1 = k) then m.map (fun p => if p.1 = k then (k, v) else p)
  else m ++ [(k, v)]

/-- `Map.get`. -/
def mapGet (m : List (String × α)) (k : String) : Option α :=
  (m.find? (·.1 = k)).map (·.2)

/-- `Set.add`: append unless already present. -/
def setAdd (s : List String) (x : String) : List String :=
  if s.contains x then s else s ++ [x]

/-- The in-memory inverted index: token → posting set, plus the registered
documents. -/
structure SearchIndex where
  index : List (String × List String) := []
  documents : List (String × AgentMetadata) := []
deriving DecidableEq, Repr

/-- `SearchIndex.addDocument`: store the metadata, build the searchable
text blob (`filter(Boolean)` drops absent and empty fields), lowercase it,
split on whitespace, and add `id` to each token's posting set.  Prior
postings of `id` are not touched. -/
def SearchIndex.addDocument (si : SearchIndex) (id : String)
    (metadata : AgentMetadata) : SearchIndex :=
  let parts : List String :=
    ([metadata.name] ++ metadata.description.toList ++ metadata.role.toList ++
      metadata.specialization.toList ++ metadata.capabilities.getD [] ++
      metadata.tags.getD [] ++ metadata.keywords.getD [] ++
      metadata.use_cases.getD []).filter (· ≠ "")
  let searchableText := jsToLower (String.intercalate " " parts)
  let tokens := jsSplitWs searchableText
  { index := tokens.foldl (fun idx token =>
      if idx.any (·.1 = token) then
        idx.map (fun p => if p.1 = token then (p.1, setAdd p.2 id) else p)
      else idx ++ [(token, [id])]) si.index
    documents := mapSet si.documents id metadata }

/-- `SearchIndex.removeDocument`: delete `id` from every posting set and
drop tokens whose set becomes empty. -/
def SearchIndex.removeDocument (si : SearchIndex) (id : String) : SearchIndex :=
  { index := ((si.index.map (fun p => (p.1, p.2.filter (· ≠ id)))).filter
      (fun p => !p.2.isEmpty))
    documents := si.documents.filter (fun p => p.1 ≠ id) }

/-- `results.set(id, (results.get(id) || 0) + k)` on the score map. -/
def bumpScore (r : List (String × Nat)) (id : String) (k : Nat) :
    List (String × Nat) :=
  if r.any (·.1 = id) then
    r.map (fun p => if p.1 = id then (id, p.2 + k) else p)
  else r ++ [(id, k)]

/-- One query token's pass over the score map: +2 to every id with an exact
posting for the token, then +1 to every id of every index token containing
the query token as a substring. -/
def scoreToken (idx : List (String × List String)) (r : List (String × Nat))
    (token : String) : List (String × Nat) :=
  let afterExact :=
    match mapGet idx token with
    | some ids => ids.foldl (fun r id => bumpScore r id 2) r
    | none => r
  idx.foldl (fun r p =>
    if jsIncludes p.1 token then p.2.foldl (fun r id => bumpScore r id 1) r
    else r) afterExact

/-- The accumulated score map of `SearchIndex.search`. -/
def SearchIndex.rawScores (si : SearchIndex) (query : String) :
    List (String × Nat) :=
  (jsSplitWs (jsToLower query)).foldl (scoreToken si.index) []

/-- The score map sorted by descending score
(`.sort((a, b) => b[1] - a[1])`). -/
def SearchIndex.searchScored (si : SearchIndex) (query : String) :
    List (String × Nat) :=
  insSortBy (fun a b => b.2 ≤ a.2) (si.rawScores query)

/-- `SearchIndex.search`: ids of the score map, by descending score. -/
def SearchIndex.search (si : SearchIndex) (query : String) : List String :=
  (si.searchScored query).map Prod.fst

/-- Structured search filters. -/
structure SearchFilters where
  capabilities : Option (List String) := none
  coding_languages : Option (List String) := none
  frameworks : Option (List String) := none
  category : Option String := none
  difficulty : Option String := none
  requires_internet : Option Bool := none
deriving DecidableEq, Repr

/-- Sortable fields. -/
inductive SortField where
  | name | created | updated | version
deriving DecidableEq, Repr

/-- Sort direction. -/
inductive SortOrder where
  | asc | desc
deriving DecidableEq, Repr

/-- Sort specification. -/
structure SortSpec where
  field : SortField
  order : SortOrder
deriving DecidableEq, Repr

/-- Search options (`limit`/`offset` carry the JS defaults via `x || d`). -/
structure SearchOptions where
  query : Option String := none
  filters : Option SearchFilters := none
  sort : Option SortSpec := none
  limit : Option Nat := none
  offset : Option Nat := none
deriving DecidableEq, Repr

/-- Search response record. -/
structure SearchResponse where
  agents : List AgentMetadata
  total : Nat
  page : Nat
  pageSize : Nat
deriving DecidableEq, Repr

/-- The search engine: id → metadata map plus the index. -/
structure AgentSearchEngine where
  agents : List (String × AgentMetadata) := []
  searchIndex : SearchIndex := {}
deriving DecidableEq, Repr

/-- The engine's synthetic id: `` `${name}-${version || 'latest'}` ``. -/
def getAgentId (agent : AgentMetadata) : String :=
  agent.name ++ "-" ++
    (match agent.version with
     | some v => if v = "" then "latest" else v
     | none => "latest")

/-- `AgentSearchEngine.addAgent`. -/
def AgentSearchEngine.addAgent (e : AgentSearchEngine) (agentId : String)
    (metadata : AgentMetadata) : AgentSearchEngine :=
  { agents := mapSet e.agents agentId metadata
    searchIndex := e.searchIndex.addDocument agentId metadata }

/-- `AgentSearchEngine.removeAgent`. -/
def AgentSearchEngine.removeAgent (e : AgentSearchEngine) (agentId : String) :
    AgentSearchEngine :=
  { agents := e.agents.filter (fun p => p.1 ≠ agentId)
    searchIndex := e.searchIndex.removeDocument agentId }

/-- `applyFilters`: AND across filter fields; inside an array-valued filter,
OR across the listed values (an empty filter array is skipped — JS
`filters.x?.length` is falsy for `[]`). -/
def applyFilters (agents : List AgentMetadata) (filters : SearchFilters) :
    List AgentMetadata :=
  agents.filter fun agent =>
    (match filters.capabilities with
     | some caps =>
       caps.isEmpty || caps.any (fun c => (agent.capabilities.getD []).contains c)
     | none => true) &&
    (match filters.coding_languages with
     | some langs =>
       langs.isEmpty ||
         langs.any (fun c => (agent.coding_languages.getD []).contains c)
     | none => true) &&
    (match filters.frameworks with
     | some fws =>
       fws.isEmpty || fws.any (fun c => (agent.frameworks.getD []).contains c)
     | none => true) &&
    (match filters.category with
     | some c => c = "" || agent.category == some c
     | none => true) &&
    (match filters.difficulty with
     | some d => d = "" || agent.difficulty == some d
     | none => true) &&
    (match filters.requires_internet with
     | some b => agent.requires_internet == some b
     | none => true)

/-- The string compared for a sort field (`a.field || ''`). -/
def sortFieldVal (a : AgentMetadata) : SortField → String
  | .name => a.name
  | .created => a.created.getD ""
  | .updated => a.updated.getD ""
  | .version => a.version.getD ""

/-- `sortResults`: sort by the named field as a plain string comparison
(`localeCompare`, modelled as code-point order), ascending or descending. -/
def sortResults (agents : List AgentMetadata) (s : SortSpec) :
    List AgentMetadata :=
  let le : AgentMetadata → AgentMetadata → Bool := fun a b =>
    let fa := (sortFieldVal a s.field).data
    let fb := (sortFieldVal b s.field).data
    match s.order with
    | .asc => charListLe fa fb
    | .desc => charListLe fb fa
  insSortBy le agents

/-- Steps (1)–(3) of `AgentSearchEngine.search`: all registered metadata,
restricted to the free-text matches when a (non-empty — JS truthiness)
query is given, then filtered, then sorted. -/
def AgentSearchEngine.searchPipeline (e : AgentSearchEngine)
    (options : SearchOptions) : List AgentMetadata :=
  let results := e.agents.map Prod.snd
  let results :=
    match options.query with
    | some q =>
      if q = "" then results
      else
        let searchIds := e.searchIndex.search q
        results.filter (fun agent => searchIds.contains (getAgentId agent))
    | none => results
  let results :=
    match options.filters with
    | some f => applyFilters results f
    | none => results
  match options.sort with
  | some s => sortResults results s
  | none => results

/-- `AgentSearchEngine.search`: the pipeline above, then pagination with
`offset = options.offset || 0` and `limit = options.limit || 20`. -/
def AgentSearchEngine.search (e : AgentSearchEngine) (options : SearchOptions) :
    SearchResponse :=
  let results := e.searchPipeline options
  let offset := options.offset.getD 0
  let limit :=
    match options.limit with
    | none => 20
    | some l => if l = 0 then 20 else l
  { agents := jsSlice results offset (offset + limit)
    total := results.length
    page := offset / limit + 1
    pageSize := limit }

/-! ## Frontmatter parser / serializer (dist/parser/index.js)

`gray-matter` and `js-yaml` are npm dependencies, not repository code.
Modelled from the spec: the header is a block delimited by lines containing
exactly `---`, decoded as a restricted-schema key/value document (mappings,
sequences and scalars only; the FAILSAFE schema makes every scalar a
string).  The codec below realizes that document class — top-level
sections `key:`, two-space-indented `key: value` scalar entries and
`key:` entries followed by `    - item` sequence items — and `serialize`
re-emits `---`, the `{agent: metadata}` document, `---`, then the body and
a trailing newline, as `gray-matter.stringify` does. -/

/-- Split a character list into lines at `'\n'`. -/
def splitLinesChars : List Char → List (List Char)
  | [] => [[]]
  | c :: cs =>
    match splitLinesChars cs with
    | [] => [[c]]
    | h :: t => if c = '\n' then [] :: h :: t else (c :: h) :: t

/-- Join lines with `'\n'`. -/
def joinLinesChars : List (List Char) → List Char
  | [] => []
  | [l] => l
  | l :: ls => l ++ '\n' :: joinLinesChars ls

/-- A value in the modelled header document: a string scalar or a sequence
of string scalars. -/
inductive YVal where
  | str (s : List Char)
  | seq (items : List (List Char))
deriving DecidableEq, Repr

/-- The `---` delimiter line. -/
def dashes : List Char := ['-', '-', '-']

/-- The body of a `    - item` sequence-item line, when the line is one. -/
def itemBody : List Char → Option (List Char)
  | ' ' :: ' ' :: ' ' :: ' ' :: '-' :: ' ' :: r => some r
  | _ => none

/-- Strip the two-space indentation of a field line. -/
def drop2Sp : List Char → Option (List Char)
  | ' ' :: ' ' :: r => some r
  | _ => none

/-- Split at the first `": "` occurrence (`none` when there is none). -/
def sfcs : List Char → Option (List Char × List Char)
  | ':' :: ' ' :: rest => some ([], rest)
  | c :: rest => (sfcs rest).map (fun p => (c :: p.1, p.2))
  | [] => none

/-- Strip one trailing `':'`. -/
def unsnocColon (r : List Char) : Option (List Char) :=
  match r.reverse with
  | ':' :: rest => some rest.reverse
  | _ => none

/-- Parse the two-space-indented field lines of one section, accumulating
decoded fields in reverse.  An item line (`    - x`) is accepted only
directly after a sequence header or another item of the same sequence and
is appended to that sequence. -/
def parseFieldsAux (inSeq : Bool) (acc : List (List Char × YVal)) :
    List (List Char) → Option (List (List Char × YVal))
  | [] => some acc.reverse
  | l :: ls =>
    match itemBody l with
    | some i =>
      match inSeq, acc with
      | true, (k, .seq its) :: rest =>
        parseFieldsAux true ((k, .seq (its ++ [i])) :: rest) ls
      | _, _ => none
    | none =>
      match drop2Sp l with
      | none => none
      | some r =>
        match sfcs r with
        | some kv => parseFieldsAux false ((kv.1, .str kv.2) :: acc) ls
        | none =>
          match unsnocColon r with
          | none => none
          | some k => parseFieldsAux true ((k, .seq []) :: acc) ls

/-- Parse the field lines of one section. -/
def parseFields (lines : List (List Char)) : Option (List (List Char × YVal)) :=
  parseFieldsAux false [] lines

/-- A top-level section header `key:` (no indentation, no `": "`). -/
def sectionKey (l : List Char) : Option (List Char) :=
  match l with
  | [] => none
  | c :: _ =>
    if c = ' ' then none
    else if (sfcs l).isSome then none
    else unsnocColon l

/-- Group the lines after a section header into that section's indented
body and the following sections. -/
def groupAux (k : List Char) (body : List (List Char)) :
    List (List Char) → Option (List (List Char × List (List Char)))
  | [] => some [(k, body)]
  | l :: ls =>
    if l.head? = some ' ' then groupAux k (body ++ [l]) ls
    else
      match sectionKey l with
      | none => none
      | some k2 => (groupAux k2 [] ls).map (fun gs => (k, body) :: gs)

/-- Parse the whole header document: a list of sections, each decoded by
`parseFields`. -/
def parseDoc (lines : List (List Char)) :
    Option (List (List Char × List (List Char × YVal))) :=
  match lines with
  | [] => some []
  | l :: ls =>
    match sectionKey l with
    | none => none
    | some k =>
      match groupAux k [] ls with
      | none => none
      | some gs => gs.mapM (fun g => (parseFields g.2).map (fun fs => (g.1, fs)))

/-- A scalar field line: `  key: value`. -/
def scalarLine (k v : List Char) : List Char := ' ' :: ' ' :: (k ++ ':' :: ' ' :: v)

/-- A sequence header line: `  key:`. -/
def seqHeaderLine (k : List Char) : List Char := ' ' :: ' ' :: (k ++ [':'])

/-- A sequence item line: `    - item`. -/
def itemLine (i : List Char) : List Char := ' ' :: ' ' :: ' ' :: ' ' :: '-' :: ' ' :: i

/-- Dump one section's fields. -/
def dumpFields (m : List (List Char × YVal)) : List (List Char) :=
  m.bind fun f =>
    match f.2 with
    | .str v => [scalarLine f.1 v]
    | .seq its => seqHeaderLine f.1 :: its.map itemLine

instance [DecidableEq ε] [DecidableEq α] : DecidableEq (Except ε α) := fun a b =>
  match a, b with
  | .error x, .error y =>
    if h : x = y then isTrue (by simp [h]) else isFalse (by simp [h])
  | .error _, .ok _ => isFalse (by simp)
  | .ok _, .error _ => isFalse (by simp)
  | .ok x, .ok y =>
    if h : x = y then isTrue (by simp [h]) else isFalse (by simp [h])

/-- The parsed agent file: metadata (the decoded `agent` section), trimmed
body, the raw input, and the optional source path. -/
structure AgentFile where
  metadata : List (List Char × YVal)
  content : List Char
  rawContent : List Char
  filePath : Option String
deriving DecidableEq, Repr

/-- `AgentParser.parse`: split off the `---`-delimited header, decode it,
require the top-level `agent` key, trim the body.  Failures (no decodable
header, missing `agent` key) are thrown in JS and carried as
`Except.error` here. -/
def AgentParser.parse (content : String) (filePath : Option String) :
    Except String AgentFile :=
  let lines := splitLinesChars content.data
  match lines with
  | [] => .error "Missing required \"agent\" field in frontmatter"
  | l0 :: rest =>
    if l0 = dashes then
      match rest.dropWhile (fun l => l ≠ dashes) with
      | [] => .error "Missing required \"agent\" field in frontmatter"
      | _ :: bodyLines =>
        match parseDoc (rest.takeWhile (fun l => l ≠ dashes)) with
        | none => .error "Failed to decode frontmatter header"
        | some doc =>
          match doc.find? (fun s => s.1 = "agent".data) with
          | none => .error "Missing required \"agent\" field in frontmatter"
          | some sec =>
            .ok { metadata := sec.2
                  content := jsTrimChars (joinLinesChars bodyLines)
                  rawContent := content.data
                  filePath := filePath }
    else .error "Missing required \"agent\" field in frontmatter"

/-- `AgentParser.serialize`: re-emit `---`, the `{agent: metadata}`
document, `---`, the body and a trailing newline. -/
def AgentParser.serialize (af : AgentFile) : String :=
  String.mk (joinLinesChars
    (dashes :: ("agent:".data :: dumpFields af.metadata) ++
      dashes :: splitLinesChars af.content ++ [[]]))

/-- Well-formedness of one decoded field, as established by the decoder
itself: keys contain no `": "` and no newline, the dumped line is not a
sequence-item line, and values are newline-free. -/
def FieldWF : List Char × YVal → Prop
  | (k, .str v) =>
    sfcs k = none ∧ itemBody (scalarLine k v) = none ∧ '\n' ∉ k ∧ '\n' ∉ v
  | (k, .seq its) =>
    sfcs (k ++ [':']) = none ∧ itemBody (seqHeaderLine k) = none ∧ '\n' ∉ k ∧
      ∀ i ∈ its, '\n' ∉ i

/-- Well-formedness of a decoded section body. -/
def MetaWF (m : List (List Char × YVal)) : Prop := ∀ f ∈ m, FieldWF f

/-! ## Spec-side scoring for `SearchIndex.search` (claim C3) -/

/-- Lookup helper for score maps: `results.get(id) || 0`. -/
def getScore (r : List (String × Nat)) (id : String) : Nat :=
  ((r.find? (·.1 = id)).map (·.2)).getD 0

/-- The claim's per-query-token score of a document: `+2` when the token
has an exact posting containing the document, plus `+1` for each index
token that contains the query token as a substring and whose posting set
contains the document. -/
def perTokenScore (idx : List (String × List String)) (t id : String) : Nat :=
  (match mapGet idx t with
   | some ids => if ids.contains id then 2 else 0
   | none => 0) +
  idx.countP (fun p => jsIncludes p.1 t && p.2.contains id)

/-- The claim's aggregate score: sum of per-token scores over the query's
lowercased whitespace-split tokens. -/
def specScore (si : SearchIndex) (query id : String) : Nat :=
  ((jsSplitWs (jsToLower query)).map (fun t => perTokenScore si.index t id)).sum

/-- Well-formedness of an index state as maintained by `Map`/`Set`:
distinct token keys and duplicate-free posting sets. -/
def SearchIndex.WF (si : SearchIndex) : Prop :=
  (si.index.map Prod.fst).Nodup ∧ ∀ p ∈ si.index, p.2.Nodup

instance (si : SearchIndex) : Decidable si.WF := by
  unfold SearchIndex.WF; infer_instance

/-! ## Concrete instances used by witnesses and counterexamples -/

/-- Metadata whose only indexed token is `alpha`. -/
def mAlpha : AgentMetadata := { name := "alpha" }

/-- Metadata whose only indexed token is `beta`. -/
def mBeta : AgentMetadata := { name := "beta" }

/-- The same id registered twice with different metadata. -/
def engReadd : AgentSearchEngine :=
  (AgentSearchEngine.addAgent (AgentSearchEngine.addAgent {} "a" mAlpha) "a" mBeta)

/-- An engine with 25 registered agents. -/
def eng25 : AgentSearchEngine :=
  (List.range 25).foldl
    (fun e i => e.addAgent (toString i) { name := "agent" ++ toString i }) {}

/-- `{limit: 10, offset: 20}`. -/
def opts25 : SearchOptions := { limit := some 10, offset := some 20 }

/-- Metadata with a present-but-empty `capabilities` array and no
version/description/author/organization. -/
def mEmptyCaps : AgentMetadata := { name := "a", capabilities := some [] }

/-- Metadata with only a name. -/
def mNameOnly : AgentMetadata := { name := "writer" }

/-- Metadata with an empty name (one schema violation). -/
def mNoName : AgentMetadata := { name := "" }

/-- Metadata declaring a present-but-empty `preferred_models` list. -/
def mEmptyPreferred : AgentMetadata :=
  { name := "x", model_requirements := some { preferred_models := some [] } }

/-- Metadata with an unsorted `dependencies` array. -/
def mDeps : AgentMetadata := { name := "x", dependencies := some ["b", "a"] }

/-- A small well-formed index state. -/
def siSmall : SearchIndex :=
  { index := [("alpha", ["a"]), ("beta", ["a", "b"])], documents := [] }

/-- A well-formed agent file text. -/
def xRound : String :=
  "---\nagent:\n  name: test\n  tags:\n    - a\n    - b\n---\nbody text\nline2\n"

/-- The agent file parsed from `xRound`. -/
def afRound : AgentFile :=
  { metadata := [("name".data, .str "test".data), ("tags".data, .seq ["a".data, "b".data])]
    content := "body text\nline2".data
    rawContent := xRound.data
    filePath := none }

/-! ## Spec-side characterizations -/

/-- Spec-side predicate: `preferred_models` is present and no entry is a
case-insensitive substring of the available model. -/
def prefMiss (o : Option ModelRequirements) (model : String) : Bool :=
  match o with
  | none => false
  | some mr =>
    match mr.preferred_models with
    | none => false
    | some pms => !(pms.any fun p => jsIncludes (jsToLower model) (jsToLower p))

/-- Spec-side predicate: `min_context` is set to a nonzero value exceeding
the available context. -/
def ctxShort (o : Option ModelRequirements) (ctx : Int) : Bool :=
  match o with
  | none => false
  | some mr =>
    match mr.min_context with
    | none => false
    | some mc => decide (mc ≠ 0) && decide (ctx < mc)

/-! # Theorems -/

/-- **C1** (code bug): re-adding the same id does *not* remove its prior
postings.  After `addAgent("a", mAlpha)` then `addAgent("a", mBeta)`, a
search for `"alpha"` — a token occurring only in the replaced metadata —
still returns `"a"`, where the spec requires no match for `"a"`. -/
theorem c1_readd_leaves_stale_postings :
    engReadd.searchIndex.search "alpha" = ["a"] ∧
    engReadd.agents = [("a", mBeta)] ∧
    engReadd.searchIndex.index.contains ("alpha", ["a"]) = true := by decide

/-- **C8** (counterexample): `normalizeMetadata` leaves a present
`dependencies` array untouched — it is not among the source's twelve
`arrayFields` — so the fifteen-array claim fails. -/
theorem c8_counterexample :
    (normalizeMetadata mDeps).dependencies = some ["b", "a"] ∧
    dedupSort ["b", "a"] = ["a", "b"] ∧
    (normalizeMetadata mDeps).dependencies ≠ some (dedupSort ["b", "a"]) := by decide

/-- **C8** (amended): `normalizeMetadata` dedup-sorts exactly the twelve
arrays `capabilities, coding_languages, frameworks, tools, technologies,
industries, skills, domains, languages, tags, keywords, use_cases`, trims
every string-valued field, and leaves `dependencies`, `integrations`,
`apis` and every other field intact. -/
theorem c8_normalize_amended (m : AgentMetadata) :
    (normalizeMetadata m).capabilities = m.capabilities.map dedupSort ∧
    (normalizeMetadata m).coding_languages = m.coding_languages.map dedupSort ∧
    (normalizeMetadata m).frameworks = m.frameworks.map dedupSort ∧
    (normalizeMetadata m).tools = m.tools.map dedupSort ∧
    (normalizeMetadata m).technologies = m.technologies.map dedupSort ∧
    (normalizeMetadata m).industries = m.industries.map dedupSort ∧
    (normalizeMetadata m).skills = m.skills.map dedupSort ∧
    (normalizeMetadata m).domains = m.domains.map dedupSort ∧
    (normalizeMetadata m).languages = m.languages.map dedupSort ∧
    (normalizeMetadata m).tags = m.tags.map dedupSort ∧
    (normalizeMetadata m).keywords = m.keywords.map dedupSort ∧
    (normalizeMetadata m).use_cases = m.use_cases.map dedupSort ∧
    (normalizeMetadata m).dependencies = m.dependencies ∧
    (normalizeMetadata m).integrations = m.integrations ∧
    (normalizeMetadata m).apis = m.apis ∧
    (normalizeMetadata m).name = jsTrim m.name ∧
    (normalizeMetadata m).version = m.version.map jsTrim ∧
    (normalizeMetadata m).description = m.description.map jsTrim ∧
    (normalizeMetadata m).role = m.role.map jsTrim ∧
    (normalizeMetadata m).specialization = m.specialization.map jsTrim ∧
    (normalizeMetadata m).author = m.author.map jsTrim ∧
    (normalizeMetadata m).organization = m.organization.map jsTrim ∧
    (normalizeMetadata m).email = m.email.map jsTrim ∧
    (normalizeMetadata m).license = m.license.map jsTrim ∧
    (normalizeMetadata m).created = m.created.map jsTrim ∧
    (normalizeMetadata m).updated = m.updated.map jsTrim ∧
    (normalizeMetadata m).category = m.category.map jsTrim ∧
    (normalizeMetadata m).subcategory = m.subcategory.map jsTrim ∧
    (normalizeMetadata m).difficulty = m.difficulty.map jsTrim ∧
    (normalizeMetadata m).model_requirements = m.model_requirements ∧
    (normalizeMetadata m).parameters = m.parameters ∧
    (normalizeMetadata m).maintainers = m.maintainers ∧
    (normalizeMetadata m).requires_internet = m.requires_internet := by
  repeat refine And.intro rfl ?_
  rfl

/-- **C9** (counterexample): with a present-but-empty `preferred_models`
list, the claim predicts zero issues and `compatible = true`, but the code
pushes a preferred-model issue (JS: an empty array is truthy and
`[].some(..)` is false). -/
theorem c9_counterexample :
    (checkModelCompatibility mEmptyPreferred "gpt-4" 100000).compatible = false ∧
    (checkModelCompatibility mEmptyPreferred "gpt-4" 100000).issues.length = 1 := by decide

/-- Helper for C9: the issue count of each block matches its spec-side
predicate. -/
theorem modelCompatIssueLens (o : Option ModelRequirements) (model : String)
    (ctx : Int) :
    (prefIssues o model).length = (if prefMiss o model then 1 else 0) ∧
    (ctxIssues o ctx).length = (if ctxShort o ctx then 1 else 0) := by
  constructor
  · cases o with
    | none => simp [prefIssues, prefMiss]
    | some mr =>
      cases hp : mr.preferred_models with
      | none => simp [prefIssues, prefMiss, hp]
      | some pms =>
        simp only [prefIssues, prefMiss, hp]
        split_ifs <;> simp_all
  · cases o with
    | none => simp [ctxIssues, ctxShort]
    | some mr =>
      cases hc : mr.min_context with
      | none => simp [ctxIssues, ctxShort, hc]
      | some mc =>
        simp only [ctxIssues, ctxShort, hc]
        split_ifs <;> simp_all <;> omega

/-- **C9** (amended): `checkModelCompatibility` never throws (it is a total
function); it adds one issue exactly when `preferred_models` is *present*
(even empty) and no entry is a case-insensitive substring of the model,
one issue exactly when `min_context` is set to a nonzero value and
`contextSize < min_context`, returns `compatible` exactly when the issue
list is empty, and returns zero issues whenever `model_requirements` is
absent. -/
theorem c9_model_compat_amended (a : AgentMetadata) (model : String) (ctx : Int) :
    ((checkModelCompatibility a model ctx).compatible = true ↔
      (checkModelCompatibility a model ctx).issues = []) ∧
    ((checkModelCompatibility a model ctx).issues.length =
      (if prefMiss a.model_requirements model then 1 else 0) +
        (if ctxShort a.model_requirements ctx then 1 else 0)) ∧
    (a.model_requirements = none → (checkModelCompatibility a model ctx).issues = []) := by
  refine ⟨?_, ?_, ?_⟩
  · simp [checkModelCompatibility, List.isEmpty_iff]
  · simp only [checkModelCompatibility, List.length_append]
    rw [(modelCompatIssueLens a.model_requirements model ctx).1,
      (modelCompatIssueLens a.model_requirements model ctx).2]
  · intro h
    simp [checkModelCompatibility, h, prefIssues, ctxIssues]

/-- **C10**: `search` with `limit = 0` behaves exactly like `search` with
the limit absent (the JS default `options.limit || 20` treats `0` as
falsy): same response, `pageSize = 20`, and `page = ⌊offset/20⌋ + 1`. -/
theorem c10_zero_limit_is_default (e : AgentSearchEngine) (o : SearchOptions)
    (h : o.limit = some 0) :
    e.search o = e.search { o with limit := none } ∧
    (e.search o).pageSize = 20 ∧
    (e.search o).page = o.offset.getD 0 / 20 + 1 := by
  have hp : e.searchPipeline { o with limit := none } = e.searchPipeline o := by
    simp [AgentSearchEngine.searchPipeline]
  refine ⟨?_, by simp [AgentSearchEngine.search, h], by simp [AgentSearchEngine.search, h]⟩
  simp [AgentSearchEngine.search, h, hp]

/-- **C10** witness. -/
theorem c10_zero_limit_witness :
    (({} : AgentSearchEngine).search { limit := some 0 }).pageSize = 20 :=
  (c10_zero_limit_is_default {} { limit := some 0 } rfl).2.1

/-- **C5**: with a positive `limit`, `search` returns the
`[offset, offset+limit)` slice of the filtered/sorted pipeline, `total` is
the pipeline length before slicing, `page = ⌊offset/limit⌋ + 1` and
`pageSize = limit`; concretely, 25 registered agents with
`{limit:10, offset:20}` give 5 agents, `total=25`, `page=3`,
`pageSize=10`. -/
theorem c5_pagination :
    (∀ (e : AgentSearchEngine) (o : SearchOptions) (l : Nat),
      o.limit = some l → 0 < l →
      (e.search o).agents = ((e.searchPipeline o).drop (o.offset.getD 0)).take l ∧
      (e.search o).total = (e.searchPipeline o).length ∧
      (e.search o).page = o.offset.getD 0 / l + 1 ∧
      (e.search o).pageSize = l) ∧
    ((eng25.search opts25).agents.length = 5 ∧ (eng25.search opts25).total = 25 ∧
      (eng25.search opts25).page = 3 ∧ (eng25.search opts25).pageSize = 10) := by
  constructor
  · intro e o l hl hpos
    have hne : l ≠ 0 := Nat.pos_iff_ne_zero.mp hpos
    simp [AgentSearchEngine.search, jsSlice, hl, hne]
  · decide

/-- **C5** witness. -/
theorem c5_pagination_witness :
    opts25.limit = some 10 ∧ 0 < 10 ∧ (eng25.search opts25).pageSize = 10 :=
  ⟨rfl, by decide, (c5_pagination.1 eng25 opts25 10 rfl (by decide)).2.2.2⟩

/-- **C6** (counterexample): metadata with a valid name, none of
version/description/author/organization, and a present-but-empty
`capabilities` array is valid but carries *4* warnings, not 3. -/
theorem c6_counterexample :
    (validate (some mEmptyCaps)).valid = true ∧
    (validate (some mEmptyCaps)).warnings.length = 4 := by decide

/-- **C6** (amended): if additionally `capabilities` is not a
present-but-empty array, metadata with a valid non-empty name, no schema
violations, and no version/description/author/organization is valid with
exactly the 3 warnings on `version`, `description` and `author`. -/
theorem c6_warnings_amended (m : AgentMetadata) (hname : m.name ≠ "")
    (hv : m.version = none) (hd : m.description = none) (ha : m.author = none)
    (ho : m.organization = none) (hcap : m.capabilities ≠ some [])
    (herr : schemaFieldErrors m = []) :
    (validate (some m)).valid = true ∧
    (validate (some m)).warnings.map ValidationWarning.field =
      ["version", "description", "author"] := by
  constructor
  · simp [validate, validateTry, herr]
  · simp only [validate, validateTry]
    simp only [validateWarnings, jsFalsyStr, hv, hd, ha, ho]
    cases hc : m.capabilities with
    | none => simp
    | some caps =>
      cases caps with
      | nil => exact absurd hc hcap
      | cons c cs => simp

/-- **C6** witness. -/
theorem c6_warnings_witness :
    schemaFieldErrors mNameOnly = [] ∧ (validate (some mNameOnly)).valid = true :=
  ⟨by decide,
    (c6_warnings_amended mNameOnly (by decide) rfl rfl rfl rfl (by decide)
      (by decide)).1⟩

/-- **C7**: the validator is total (never throws): `valid` holds exactly
when the error list is empty; on structured metadata it returns *all*
schema violations (`schemaFieldErrors` enumerates every field check) plus
the advisory warnings; on null metadata the internal `TypeError` is caught
and converted into a trailing generic error on field `agent` with
`valid = false` instead of propagating. -/
theorem c7_validate_total (m : Option AgentMetadata) :
    ((validate m).valid = true ↔ (validate m).errors = []) ∧
    (∀ md, m = some md →
      (validate m).errors = schemaFieldErrors md ∧
      (validate m).warnings = validateWarnings md) ∧
    (m = none →
      (validate m).valid = false ∧
      (validate m).errors.map ValidationError.field = ["", "agent"]) := by
  cases m with
  | none => refine ⟨by simp [validate, validateTry], by simp, by simp [validate, validateTry]⟩
  | some md =>
    refine ⟨?_, ?_, by simp⟩
    · simp [validate, validateTry, List.isEmpty_iff]
    · intro md2 h
      cases h
      exact ⟨rfl, rfl⟩

/-- **C7** witness. -/
theorem c7_validate_witness :
    (validate (some mNoName)).errors = schemaFieldErrors mNoName ∧
    (validate none).valid = false :=
  ⟨((c7_validate_total (some mNoName)).2.1 mNoName rfl).1,
    ((c7_validate_total none).2.2 rfl).1⟩

/-- **C4** (counterexample): `checkCompatibility("^1.2.0", "1.3.0")` is
*incompatible* with reason `Invalid version format` (ranges do not survive
`semver.clean`), and `checkCompatibility("1.2.0", "2.0.0")` suggests
`"1.x.x"` (the *required* major), not `"2.x.x"` as claimed. -/
theorem c4_counterexample :
    checkCompatibility "^1.2.0" "1.3.0" =
      { compatible := false, reason := some "Invalid version format" } ∧
    (checkCompatibility "1.2.0" "2.0.0").suggestedVersion = some "1.x.x" ∧
    (checkCompatibility "1.2.0" "2.0.0").suggestedVersion ≠ some "2.x.x" := by decide

/-- **C4** (amended): inputs that fail `semver.clean` — including range
expressions such as `^1.2.0`, which never reach the satisfaction check —
yield `Invalid version format` with no suggestion; otherwise the checks run
in order range-satisfaction, major mismatch (suggesting
`<requiredMajor>.x.x`), then plain less-than (`too old`, suggesting the
required string).  Concretely: `("^1.2.0", "1.3.0")` is invalid-format,
`("1.2.0", "2.0.0")` is a major mismatch suggesting `1.x.x`, and
`("1.5.0", "1.2.0")` is too old suggesting `1.5.0`. -/
theorem c4_check_compatibility_amended :
    (∀ r p, semverClean r = none ∨ semverClean p = none →
      checkCompatibility r p =
        { compatible := false, reason := some "Invalid version format" }) ∧
    (∀ r p vr vp, semverClean r = some vr → semverClean p = some vp →
      checkCompatibility r p =
        (if svSatisfies vp r then { compatible := true }
         else if vr.major ≠ vp.major then
          { compatible := false
            reason := some ("Major version mismatch: required v" ++
              toString vr.major ++ ", provided v" ++ toString vp.major)
            suggestedVersion := some (toString vr.major ++ ".x.x") }
         else if svLt vp vr then
          { compatible := false
            reason := some ("Version too old: required " ++ r ++ ", provided " ++ p)
            suggestedVersion := some r }
         else { compatible := true })) ∧
    checkCompatibility "^1.2.0" "1.3.0" =
      { compatible := false, reason := some "Invalid version format" } ∧
    checkCompatibility "1.2.0" "2.0.0" =
      { compatible := false
        reason := some "Major version mismatch: required v1, provided v2"
        suggestedVersion := some "1.x.x" } ∧
    checkCompatibility "1.5.0" "1.2.0" =
      { compatible := false
        reason := some "Version too old: required 1.5.0, provided 1.2.0"
        suggestedVersion := some "1.5.0" } := by
  refine ⟨?_, ?_, by decide, by decide, by decide⟩
  · intro r p h
    rcases hr : semverClean r with _ | vr <;> rcases hp : semverClean p with _ | vp <;>
      simp [checkCompatibility, hr, hp] at h ⊢
  · intro r p vr vp hr hp
    simp [checkCompatibility, hr, hp]

/-- **C4** witness. -/
theorem c4_check_compatibility_witness :
    (semverClean "^1.2.0" = none ∨ semverClean "1.3.0" = none) ∧
    checkCompatibility "^1.2.0" "1.3.0" =
      { compatible := false, reason := some "Invalid version format" } :=
  ⟨Or.inl (by decide),
    c4_check_compatibility_amended.1 "^1.2.0" "1.3.0" (Or.inl (by decide))⟩

/-! ### Score-map lemmas for C3 -/

/-- `bumpScore` on a key already present: keys unchanged. -/
theorem keys_bump_of_any (r : List (String × Nat)) (id : String) (k : Nat)
    (h : r.any (·.1 = id) = true) :
    (bumpScore r id k).map Prod.fst = r.map Prod.fst := by
  simp only [bumpScore, h, if_true, List.map_map]
  apply List.map_congr_left
  intro p _
  by_cases hp : p.1 = id <;> simp [hp]

/-- `bumpScore` on a fresh key: the key is appended. -/
theorem keys_bump_of_not (r : List (String × Nat)) (id : String) (k : Nat)
    (h : r.any (·.1 = id) = false) :
    (bumpScore r id k).map Prod.fst = r.map Prod.fst ++ [id] := by
  simp [bumpScore, h]

/-- `getScore` on a cons cell. -/
theorem getScore_cons (p : String × Nat) (ps : List (String × Nat)) (idq : String) :
    getScore (p :: ps) idq = if p.1 = idq then p.2 else getScore ps idq := by
  by_cases h : p.1 = idq <;> simp [getScore, List.find?, h]

/-- The in-place update part of `bumpScore`, scored. -/
theorem getScore_map_set (r : List (String × Nat)) (id idq : String) (k : Nat) :
    getScore (r.map (fun p => if p.1 = id then (id, p.2 + k) else p)) idq =
      getScore r idq + (if idq = id ∧ r.any (·.1 = id) then k else 0) := by
  induction r with
  | nil => simp [getScore]
  | cons p ps ih =>
    simp only [List.map_cons, getScore_cons, List.any_cons]
    by_cases hp : p.1 = id
    · by_cases hq : idq = id
      · subst hq
        simp [hp]
      · have h1 : ¬(id = idq) := fun e => hq e.symm
        have h2 : ¬(p.1 = idq) := by rw [hp]; exact h1
        simp only [hp, if_true, h1, if_false, h2, ih]
        simp [hq]
    · by_cases hq : p.1 = idq
      · have h1 : ¬(idq = id) := by
          intro e
          exact hp (hq.trans e)
        simp [hp, hq, h1]
      · simp only [hp, if_false, hq, ih]
        cases hb : (ps.any fun x => decide (x.1 = id)) <;> simp [hb]

/-- The append part of `bumpScore`, scored. -/
theorem getScore_append_new (r : List (String × Nat)) (id idq : String) (k : Nat)
    (h : r.any (·.1 = id) = false) :
    getScore (r ++ [(id, k)]) idq = getScore r idq + (if idq = id then k else 0) := by
  induction r with
  | nil =>
    by_cases hq : idq = id
    · subst hq
      simp [getScore, List.find?]
    · have h1 : ¬(id = idq) := fun e => hq e.symm
      simp [getScore, List.find?, hq, h1]
  | cons p ps ih =>
    simp only [List.any_cons, Bool.or_eq_false_iff, decide_eq_false_iff_not] at h
    simp only [List.cons_append, getScore_cons]
    by_cases hq : p.1 = idq
    · have h1 : ¬(idq = id) := by
        intro e
        exact h.1 (hq.trans e)
      simp [hq, h1]
    · simp only [hq, if_false]
      exact ih (by simpa using h.2)

/-- `bumpScore` adds `k` to exactly the bumped id's score. -/
theorem getScore_bump (r : List (String × Nat)) (id idq : String) (k : Nat) :
    getScore (bumpScore r id k) idq =
      getScore r idq + (if idq = id then k else 0) := by
  by_cases hany : r.any (·.1 = id)
  · simp only [bumpScore, hany, if_true]
    rw [getScore_map_set]
    by_cases hq : idq = id <;> simp [hq, hany]
  · simp only [bumpScore, hany]
    simp only [Bool.false_eq_true, if_false]
    exact getScore_append_new r id idq k (eq_false_of_ne_true hany)

/-- `bumpScore` preserves distinctness of keys. -/
theorem nodup_keys_bump (r : List (String × Nat)) (id : String) (k : Nat)
    (h : (r.map Prod.fst).Nodup) : ((bumpScore r id k).map Prod.fst).Nodup := by
  by_cases hany : r.any (·.1 = id)
  · rw [keys_bump_of_any r id k hany]; exact h
  · rw [keys_bump_of_not r id k (eq_false_of_ne_true hany)]
    have hid : id ∉ r.map Prod.fst := by
      intro hm
      rcases List.mem_map.mp hm with ⟨p, hp, he⟩
      have : r.any (·.1 = id) = true := List.any_eq_true.mpr ⟨p, hp, by simp [he]⟩
      simp [this] at hany
    simp [List.nodup_append, h, hid]

/-- `bumpScore` with a positive increment keeps all scores positive. -/
theorem pos_bump (r : List (String × Nat)) (id : String) (k : Nat) (hk : 0 < k)
    (h : ∀ e ∈ r, 0 < e.2) : ∀ e ∈ bumpScore r id k, 0 < e.2 := by
  intro e he
  by_cases hany : r.any (·.1 = id)
  · simp only [bumpScore, hany, if_true] at he
    rcases List.mem_map.mp he with ⟨p, hp, hep⟩
    by_cases hc : p.1 = id
    · simp only [hc, if_true] at hep
      rw [← hep]
      have := h p hp
      omega
    · simp only [hc, if_false] at hep
      exact hep ▸ h p hp
  · simp only [bumpScore, hany, Bool.false_eq_true, if_false, List.mem_append] at he
    rcases he with he | he
    · exact h e he
    · simp only [List.mem_singleton] at he
      simpa [he] using hk

/-- Folding `bumpScore` with increment `k` over a duplicate-free id list
adds `k` to exactly the listed ids. -/
theorem getScore_foldl_bump (k : Nat) (ids : List String) (hnd : ids.Nodup) :
    ∀ (r : List (String × Nat)) (idq : String),
    getScore (ids.foldl (fun r i => bumpScore r i k) r) idq =
      getScore r idq + (if idq ∈ ids then k else 0) := by
  induction ids with
  | nil => intro r idq; simp
  | cons x xs ih =>
    intro r idq
    have hx : x ∉ xs := (List.nodup_cons.mp hnd).1
    have hxs : xs.Nodup := (List.nodup_cons.mp hnd).2
    simp only [List.foldl_cons]
    rw [ih hxs (bumpScore r x k) idq, getScore_bump]
    by_cases h1 : idq = x
    · subst h1
      simp [hx]
    · simp [h1]

/-- Folding `bumpScore` preserves key distinctness. -/
theorem nodup_keys_foldl_bump (k : Nat) (ids : List String) :
    ∀ r : List (String × Nat), (r.map Prod.fst).Nodup →
    (((ids.foldl (fun r i => bumpScore r i k) r)).map Prod.fst).Nodup := by
  induction ids with
  | nil => intro r h; simpa
  | cons x xs ih => intro r h; exact ih _ (nodup_keys_bump r x k h)

/-- Folding `bumpScore` with a positive increment preserves positivity. -/
theorem pos_foldl_bump (k : Nat) (hk : 0 < k) (ids : List String) :
    ∀ r : List (String × Nat), (∀ e ∈ r, 0 < e.2) →
    ∀ e ∈ ids.foldl (fun r i => bumpScore r i k) r, 0 < e.2 := by
  induction ids with
  | nil => intro r h e he; simp only [List.foldl_nil] at he; exact h e he
  | cons x xs ih => intro r h; exact ih _ (pos_bump r x k hk h)

/-- The partial-match pass over the index entries, scored: `+1` per entry
whose token contains the query token and whose postings contain the id. -/
theorem getScore_foldl_entries (t : String) (es : List (String × List String))
    (hnd : ∀ p ∈ es, p.2.Nodup) :
    ∀ (r : List (String × Nat)) (idq : String),
    getScore (es.foldl (fun r p =>
        if jsIncludes p.1 t then p.2.foldl (fun r id => bumpScore r id 1) r else r) r) idq =
      getScore r idq + es.countP (fun p => jsIncludes p.1 t && p.2.contains idq) := by
  induction es with
  | nil => intro r idq; simp
  | cons p ps ih =>
    intro r idq
    have hp2 : p.2.Nodup := hnd p (List.mem_cons_self p ps)
    have hps : ∀ q ∈ ps, q.2.Nodup := fun q hq => hnd q (List.mem_cons_of_mem p hq)
    simp only [List.foldl_cons, List.countP_cons]
    by_cases hincl : jsIncludes p.1 t
    · simp only [hincl, if_true]
      rw [ih hps, getScore_foldl_bump 1 p.2 hp2]
      by_cases hc : idq ∈ p.2
      · have hcb : p.2.contains idq = true := List.elem_eq_true_of_mem hc
        simp [hincl, hc, hcb]
        omega
      · have hcb : p.2.contains idq = false := by
          rcases hb : p.2.contains idq with _ | _
          · rfl
          · exact absurd (List.mem_of_elem_eq_true hb) hc
        simp [hincl, hc, hcb]
    · have hib : jsIncludes p.1 t = false := eq_false_of_ne_true hincl
      simp only [hib, Bool.false_eq_true, if_false, Bool.false_and]
      rw [ih hps]
      simp

/-- The partial-match pass preserves key distinctness. -/
theorem nodup_keys_foldl_entries (t : String) (es : List (String × List String)) :
    ∀ r : List (String × Nat), (r.map Prod.fst).Nodup →
    ((es.foldl (fun r p =>
        if jsIncludes p.1 t then p.2.foldl (fun r id => bumpScore r id 1) r else r) r).map
      Prod.fst).Nodup := by
  induction es with
  | nil => intro r h; simpa
  | cons p ps ih =>
    intro r h
    simp only [List.foldl_cons]
    by_cases hincl : jsIncludes p.1 t
    · simp only [hincl, if_true]
      exact ih _ (nodup_keys_foldl_bump 1 p.2 r h)
    · have hib : jsIncludes p.1 t = false := eq_false_of_ne_true hincl
      simp only [hib, Bool.false_eq_true, if_false]
      exact ih _ h

/-- The partial-match pass preserves positivity. -/
theorem pos_foldl_entries (t : String) (es : List (String × List String)) :
    ∀ r : List (String × Nat), (∀ e ∈ r, 0 < e.2) →
    ∀ e ∈ es.foldl (fun r p =>
        if jsIncludes p.1 t then p.2.foldl (fun r id => bumpScore r id 1) r else r) r,
      0 < e.2 := by
  induction es with
  | nil => intro r h e he; simp only [List.foldl_nil] at he; exact h e he
  | cons p ps ih =>
    intro r h
    simp only [List.foldl_cons]
    by_cases hincl : jsIncludes p.1 t
    · simp only [hincl, if_true]
      exact ih _ (pos_foldl_bump 1 (by omega) p.2 r h)
    · have hib : jsIncludes p.1 t = false := eq_false_of_ne_true hincl
      simp only [hib, Bool.false_eq_true, if_false]
      exact ih _ h

/-- One query token's pass adds exactly `perTokenScore`. -/
theorem getScore_scoreToken (idx : List (String × List String))
    (hminor : ∀ p ∈ idx, p.2.Nodup) (r : List (String × Nat)) (t idq : String) :
    getScore (scoreToken idx r t) idq = getScore r idq + perTokenScore idx t idq := by
  unfold scoreToken perTokenScore
  cases hm : mapGet idx t with
  | none =>
    simp only
    rw [getScore_foldl_entries t idx hminor]
    omega
  | some ids =>
    have hids : ids.Nodup := by
      unfold mapGet at hm
      rcases hfind : idx.find? (·.1 = t) with _ | p
      · simp [hfind] at hm
      · simp only [hfind, Option.map_some] at hm
        cases hm
        exact hminor p (List.mem_of_find?_eq_some hfind)
    simp only
    rw [getScore_foldl_entries t idx hminor, getScore_foldl_bump 2 ids hids]
    by_cases hc : idq ∈ ids
    · have hcb : ids.contains idq = true := List.elem_eq_true_of_mem hc
      simp [hc, hcb] <;> omega
    · have hcb : ids.contains idq = false := by
        rcases hb : ids.contains idq with _ | _
        · rfl
        · exact absurd (List.mem_of_elem_eq_true hb) hc
      simp [hc, hcb] <;> omega

/-- One query token's pass preserves key distinctness. -/
theorem nodup_keys_scoreToken (idx : List (String × List String))
    (r : List (String × Nat)) (t : String) (h : (r.map Prod.fst).Nodup) :
    ((scoreToken idx r t).map Prod.fst).Nodup := by
  unfold scoreToken
  cases mapGet idx t with
  | none => exact nodup_keys_foldl_entries t idx r h
  | some ids => exact nodup_keys_foldl_entries t idx _ (nodup_keys_foldl_bump 2 ids r h)

/-- One query token's pass preserves positivity. -/
theorem pos_scoreToken (idx : List (String × List String))
    (r : List (String × Nat)) (t : String) (h : ∀ e ∈ r, 0 < e.2) :
    ∀ e ∈ scoreToken idx r t, 0 < e.2 := by
  unfold scoreToken
  cases mapGet idx t with
  | none => exact pos_foldl_entries t idx r h
  | some ids =>
    exact pos_foldl_entries t idx _ (pos_foldl_bump 2 (by omega) ids r h)

/-- The token fold accumulates the sum of per-token scores. -/
theorem getScore_foldl_tokens (idx : List (String × List String))
    (hminor : ∀ p ∈ idx, p.2.Nodup) (toks : List String) :
    ∀ (r : List (String × Nat)) (idq : String),
    getScore (toks.foldl (scoreToken idx) r) idq =
      getScore r idq + (toks.map (fun t => perTokenScore idx t idq)).sum := by
  induction toks with
  | nil => intro r idq; simp
  | cons t ts ih =>
    intro r idq
    simp only [List.foldl_cons, List.map_cons, List.sum_cons]
    rw [ih, getScore_scoreToken idx hminor]
    omega

/-- The token fold preserves key distinctness. -/
theorem nodup_keys_foldl_tokens (idx : List (String × List String))
    (toks : List String) :
    ∀ r : List (String × Nat), (r.map Prod.fst).Nodup →
    ((toks.foldl (scoreToken idx) r).map Prod.fst).Nodup := by
  induction toks with
  | nil => intro r h; simpa
  | cons t ts ih => intro r h; exact ih _ (nodup_keys_scoreToken idx r t h)

/-- The token fold preserves positivity. -/
theorem pos_foldl_tokens (idx : List (String × List String)) (toks : List String) :
    ∀ r : List (String × Nat), (∀ e ∈ r, 0 < e.2) →
    ∀ e ∈ toks.foldl (scoreToken idx) r, 0 < e.2 := by
  induction toks with
  | nil => intro r h e he; simp only [List.foldl_nil] at he; exact h e he
  | cons t ts ih => intro r h; exact ih _ (pos_scoreToken idx r t h)

/-- With distinct keys, `find?` locates exactly a known member. -/
theorem find?_eq_of_nodup (r : List (String × Nat))
    (hnd : (r.map Prod.fst).Nodup) (id : String) (s : Nat) (h : (id, s) ∈ r) :
    r.find? (·.1 = id) = some (id, s) := by
  induction r with
  | nil => cases h
  | cons p ps ih =>
    have hp : p.1 ∉ ps.map Prod.fst := (List.nodup_cons.mp hnd).1
    have hps : (ps.map Prod.fst).Nodup := (List.nodup_cons.mp hnd).2
    rcases List.mem_cons.mp h with he | ht
    · rw [← he]
      simp [List.find?]
    · by_cases hid : p.1 = id
      · exact absurd (hid ▸ List.mem_map_of_mem Prod.fst ht) hp
      · simp only [List.find?, show (decide (p.1 = id)) = false by simp [hid]]
        exact ih hps ht

/-- With distinct keys and positive scores, membership in the score map is
exactly "positive score as computed by `getScore`". -/
theorem mem_scores_iff (r : List (String × Nat))
    (hnd : (r.map Prod.fst).Nodup) (hpos : ∀ e ∈ r, 0 < e.2)
    (id : String) (s : Nat) :
    (id, s) ∈ r ↔ (getScore r id = s ∧ 0 < s) := by
  constructor
  · intro h
    refine ⟨?_, hpos (id, s) h⟩
    rw [getScore, find?_eq_of_nodup r hnd id s h]
    rfl
  · rintro ⟨hg, hs⟩
    rcases hfind : r.find? (·.1 = id) with _ | p
    · rw [getScore, hfind] at hg
      simp at hg
      omega
    · have hp1 : p.1 = id := by
        have := List.find?_some hfind
        simpa using this
      have hp2 : p.2 = s := by
        rw [getScore, hfind] at hg
        simpa using hg
      have : p = (id, s) := Prod.ext hp1 hp2
      exact this ▸ List.mem_of_find?_eq_some hfind

/-! ### Sorting lemmas for C3 -/

/-- `insertBy` produces a permutation of consing. -/
theorem perm_insertBy (le : α → α → Bool) (x : α) (l : List α) :
    List.Perm (insertBy le x l) (x :: l) := by
  induction l with
  | nil => exact List.Perm.refl _
  | cons y ys ih =>
    simp only [insertBy]
    by_cases h : le x y
    · simp only [h, if_true]
      exact List.Perm.refl _
    · simp only [h, if_false]
      exact (ih.cons y).trans (List.Perm.swap x y ys)

/-- `insSortBy` permutes its input. -/
theorem perm_insSortBy (le : α → α → Bool) (l : List α) :
    List.Perm (insSortBy le l) l := by
  induction l with
  | nil => exact List.Perm.refl _
  | cons x xs ih =>
    exact (perm_insertBy le x (insSortBy le xs)).trans (ih.cons x)

/-- Inserting into a sorted list keeps it sorted (total, transitive `le`). -/
theorem pairwise_insertBy (le : α → α → Bool)
    (htot : ∀ a b, le a b = true ∨ le b a = true)
    (htrans : ∀ a b c, le a b = true → le b c = true → le a c = true)
    (x : α) (l : List α) (h : l.Pairwise (fun a b => le a b = true)) :
    (insertBy le x l).Pairwise (fun a b => le a b = true) := by
  induction l with
  | nil => simp [insertBy]
  | cons y ys ih =>
    rcases List.pairwise_cons.mp h with ⟨hy, hys⟩
    simp only [insertBy]
    by_cases hxy : le x y = true
    · simp only [hxy, if_true]
      refine List.pairwise_cons.mpr ⟨?_, h⟩
      intro z hz
      rcases List.mem_cons.mp hz with rfl | hz2
      · exact hxy
      · exact htrans x y z hxy (hy z hz2)
    · have hyx : le y x = true := (htot x y).resolve_left hxy
      simp only [hxy, if_false]
      refine List.pairwise_cons.mpr ⟨?_, ih hys⟩
      intro z hz
      rcases List.mem_cons.mp ((perm_insertBy le x ys).mem_iff.mp hz) with rfl | hz2
      · exact hyx
      · exact hy z hz2

/-- `insSortBy` sorts (total, transitive `le`). -/
theorem pairwise_insSortBy (le : α → α → Bool)
    (htot : ∀ a b, le a b = true ∨ le b a = true)
    (htrans : ∀ a b c, le a b = true → le b c = true → le a c = true)
    (l : List α) :
    (insSortBy le l).Pairwise (fun a b => le a b = true) := by
  induction l with
  | nil => simp [insSortBy]
  | cons x xs ih => exact pairwise_insertBy le htot htrans x (insSortBy le xs) ih

/-- **C3**: for every well-formed index state and every query, `search`
returns the ids of the score map sorted by descending aggregate score, and
an id carries score `s` in that map exactly when the claim's scoring rule
(`+2` per exact token match, `+1` per index token containing the query
token as a substring, summed over the lowercased whitespace-split query
tokens) assigns it the positive score `s`. -/
theorem c3_search_scoring (si : SearchIndex) (h : si.WF) (q : String) :
    si.search q = (si.searchScored q).map Prod.fst ∧
    List.Sorted (fun a b : String × Nat => b.2 ≤ a.2) (si.searchScored q) ∧
    ∀ id s, ((id, s) ∈ si.searchScored q ↔ (specScore si q id = s ∧ 0 < s)) := by
  obtain ⟨hkeys, hminor⟩ := h
  have htot : ∀ a b : String × Nat,
      (fun a b : String × Nat => decide (b.2 ≤ a.2)) a b = true ∨
      (fun a b : String × Nat => decide (b.2 ≤ a.2)) b a = true := by
    intro a b
    rcases Nat.le_total b.2 a.2 with hle | hle
    · exact Or.inl (decide_eq_true hle)
    · exact Or.inr (decide_eq_true hle)
  have htrans : ∀ a b c : String × Nat,
      (fun a b : String × Nat => decide (b.2 ≤ a.2)) a b = true →
      (fun a b : String × Nat => decide (b.2 ≤ a.2)) b c = true →
      (fun a b : String × Nat => decide (b.2 ≤ a.2)) a c = true := by
    intro a b c hab hbc
    exact decide_eq_true (Nat.le_trans (of_decide_eq_true hbc) (of_decide_eq_true hab))
  have hperm : List.Perm (si.searchScored q) (si.rawScores q) :=
    perm_insSortBy _ (si.rawScores q)
  have hnodup : ((si.rawScores q).map Prod.fst).Nodup :=
    nodup_keys_foldl_tokens si.index _ [] (by simp)
  have hpos : ∀ e ∈ si.rawScores q, 0 < e.2 :=
    pos_foldl_tokens si.index _ [] (by simp)
  have hscore : ∀ id, getScore (si.rawScores q) id = specScore si q id := by
    intro id
    unfold SearchIndex.rawScores specScore
    rw [getScore_foldl_tokens si.index hminor]
    simp [getScore]
  refine ⟨rfl, ?_, ?_⟩
  · exact List.Pairwise.imp (fun hab => of_decide_eq_true hab)
      (pairwise_insSortBy _ htot htrans (si.rawScores q))
  · intro id s
    rw [hperm.mem_iff, mem_scores_iff _ hnodup hpos id s, hscore id]

/-- **C3** witness. -/
theorem c3_search_scoring_witness :
    siSmall.WF ∧
    (("a", 3) ∈ siSmall.searchScored "alpha" ↔
      (specScore siSmall "alpha" "a" = 3 ∧ 0 < 3)) :=
  ⟨by decide, (c3_search_scoring siSmall (by decide) "alpha").2.2 "a" 3⟩

/-! ### Codec lemmas for C2 -/

/-- One-step unfolding of `sfcs` on a cons cell. -/
theorem sfcs_cons_eq (c : Char) (rest : List Char) :
    sfcs (c :: rest) =
      if c = ':' ∧ rest.head? = some ' ' then some ([], rest.tail)
      else (sfcs rest).map (fun p => (c :: p.1, p.2)) := by
  cases rest with
  | nil =>
    by_cases hc : c = ':' <;> simp [sfcs, hc]
  | cons c2 t =>
    by_cases hc : c = ':'
    · subst hc
      by_cases h2 : c2 = ' '
      · subst h2
        simp [sfcs]
      · simp [sfcs, h2, fun e => h2 (Option.some.inj e)]
    · simp [sfcs, hc]

/-- `sfcs` splits at the first `": "`: the pieces reassemble the input and
the key piece holds no `": "`. -/
theorem sfcs_sound (r : List Char) : ∀ k v, sfcs r = some (k, v) →
    r = k ++ ':' :: ' ' :: v ∧ sfcs k = none := by
  induction r with
  | nil => intro k v h; simp [sfcs] at h
  | cons c rest ih =>
    intro k v h
    rw [sfcs_cons_eq] at h
    split at h
    · rename_i hcond
      obtain ⟨hc, hh⟩ := hcond
      obtain ⟨rfl, rfl⟩ : ([] : List Char) = k ∧ rest.tail = v := by
        have h4 := Option.some.inj h
        exact ⟨congrArg Prod.fst h4, congrArg Prod.snd h4⟩
      subst hc
      cases rest with
      | nil => simp at hh
      | cons c2 t =>
        obtain rfl : c2 = ' ' := Option.some.inj hh
        exact ⟨rfl, rfl⟩
    · rename_i hcond
      cases hs : sfcs rest with
      | none => rw [hs] at h; simp at h
      | some p =>
        rw [hs] at h
        have h4 : (c :: p.1, p.2) = (k, v) := Option.some.inj h
        obtain ⟨rfl, rfl⟩ : c :: p.1 = k ∧ p.2 = v :=
          ⟨congrArg Prod.fst h4, congrArg Prod.snd h4⟩
        obtain ⟨he, hk⟩ := ih p.1 p.2 hs
        refine ⟨by rw [he]; rfl, ?_⟩
        rw [sfcs_cons_eq, hk]
        have hcond2 : ¬(c = ':' ∧ p.1.head? = some ' ') := by
          rintro ⟨rfl, hph⟩
          apply hcond
          refine ⟨rfl, ?_⟩
          cases hp1 : p.1 with
          | nil => rw [hp1] at hph; simp at hph
          | cons x t2 =>
            rw [hp1] at hph
            rw [he, hp1]
            simpa using hph
        simp [hcond2]

/-- Re-splitting a dumped scalar line recovers key and value. -/
theorem sfcs_of_append (k v : List Char) (h : sfcs k = none) :
    sfcs (k ++ ':' :: ' ' :: v) = some (k, v) := by
  induction k with
  | nil => simp [sfcs]
  | cons c t ih =>
    have ht : sfcs t = none := by
      rw [sfcs_cons_eq] at h
      split at h
      · simp at h
      · cases hs : sfcs t with
        | none => rfl
        | some p => rw [hs] at h; simp at h
    have hcond : ¬(c = ':' ∧ (t ++ ':' :: ' ' :: v).head? = some ' ') := by
      rintro ⟨rfl, hh⟩
      cases t with
      | nil => simp at hh
      | cons x t2 =>
        simp only [List.cons_append, List.head?_cons] at hh
        obtain rfl : x = ' ' := Option.some.inj hh
        rw [sfcs_cons_eq] at h
        simp at h
    rw [List.cons_append, sfcs_cons_eq, ih ht, if_neg hcond]
    rfl

/-- `unsnocColon` undoes appending `':'`. -/
theorem unsnocColon_append (k : List Char) : unsnocColon (k ++ [':']) = some k := by
  simp [unsnocColon, List.reverse_append]

/-- `unsnocColon` soundness. -/
theorem unsnocColon_sound (r k : List Char) (h : unsnocColon r = some k) :
    r = k ++ [':'] := by
  unfold unsnocColon at h
  cases hr : r.reverse with
  | nil => rw [hr] at h; simp at h
  | cons c t =>
    rw [hr] at h
    by_cases hc : c = ':'
    · subst hc
      simp only at h
      obtain rfl : t.reverse = k := Option.some.inj h
      have : r = (':' :: t).reverse := by rw [← hr, List.reverse_reverse]
      rw [this]
      simp
    · exfalso
      cases c <;> simp_all [unsnocColon]

/-- `itemBody` recognizes exactly `itemLine`. -/
theorem itemBody_itemLine (i : List Char) : itemBody (itemLine i) = some i := rfl

/-- `itemBody` soundness. -/
theorem itemBody_sound (l i : List Char) (h : itemBody l = some i) :
    l = itemLine i := by
  unfold itemBody at h
  split at h
  · rw [Option.some.inj h]
    rfl
  · simp at h

/-- `drop2Sp` soundness. -/
theorem drop2Sp_sound (l r : List Char) (h : drop2Sp l = some r) :
    l = ' ' :: ' ' :: r := by
  unfold drop2Sp at h
  split at h
  · rw [Option.some.inj h]
  · simp at h

/-- Elements of `takeWhile` are elements. -/
theorem mem_of_mem_takeWhile (p : α → Bool) (l : List α) (x : α)
    (h : x ∈ l.takeWhile p) : x ∈ l := by
  induction l with
  | nil => simpa using h
  | cons a t ih =>
    rw [List.takeWhile_cons] at h
    by_cases hp : p a
    · rw [if_pos hp] at h
      rcases List.mem_cons.mp h with h1 | h2
      · exact List.mem_cons.mpr (Or.inl h1)
      · exact List.mem_cons.mpr (Or.inr (ih h2))
    · rw [if_neg hp] at h
      cases h

/-- `takeWhile` over an all-satisfying block. -/
theorem takeWhile_append_all (p : α → Bool) (l1 l2 : List α)
    (h : ∀ x ∈ l1, p x = true) :
    (l1 ++ l2).takeWhile p = l1 ++ l2.takeWhile p := by
  induction l1 with
  | nil => simp
  | cons a t ih =>
    have ha := h a (List.mem_cons_self a t)
    simp only [List.cons_append, List.takeWhile_cons, ha, if_true]
    rw [ih (fun x hx => h x (List.mem_cons_of_mem a hx))]

/-- `dropWhile` over an all-satisfying block. -/
theorem dropWhile_append_all (p : α → Bool) (l1 l2 : List α)
    (h : ∀ x ∈ l1, p x = true) :
    (l1 ++ l2).dropWhile p = l2.dropWhile p := by
  induction l1 with
  | nil => simp
  | cons a t ih =>
    have ha := h a (List.mem_cons_self a t)
    simp only [List.cons_append, List.dropWhile_cons, ha, if_true]
    exact ih (fun x hx => h x (List.mem_cons_of_mem a hx))

/-- Consuming dumped item lines appends the items to the open sequence. -/
theorem parseFieldsAux_items (k : List Char) (its : List (List Char)) :
    ∀ (its0 : List (List Char)) (acc : List (List Char × YVal))
      (rest : List (List Char)),
    parseFieldsAux true ((k, .seq its0) :: acc) (its.map itemLine ++ rest) =
      parseFieldsAux true ((k, .seq (its0 ++ its)) :: acc) rest := by
  induction its with
  | nil => intro its0 acc rest; simp
  | cons i is ih =>
    intro its0 acc rest
    simp only [List.map_cons, List.cons_append]
    have hstep : parseFieldsAux true ((k, .seq its0) :: acc)
        (itemLine i :: (is.map itemLine ++ rest)) =
        parseFieldsAux true ((k, .seq (its0 ++ [i])) :: acc)
          (is.map itemLine ++ rest) := by
      simp [parseFieldsAux, itemBody_itemLine]
    rw [hstep, ih (its0 ++ [i]) acc rest]
    simp

/-- Re-parsing a dumped section body recovers the fields (after the
accumulator). -/
theorem parseFieldsAux_dump (m : List (List Char × YVal)) (hwf : MetaWF m) :
    ∀ (inSeq : Bool) (acc : List (List Char × YVal)),
    parseFieldsAux inSeq acc (dumpFields m) = some (acc.reverse ++ m) := by
  induction m with
  | nil => intro inSeq acc; simp [dumpFields, parseFieldsAux]
  | cons f fs ih =>
    intro inSeq acc
    have hwf_f : FieldWF f := hwf f (List.mem_cons_self f fs)
    have hwf_fs : MetaWF fs := fun g hg => hwf g (List.mem_cons_of_mem f hg)
    obtain ⟨k, val⟩ := f
    cases val with
    | str v =>
      obtain ⟨hk, hitem, _, _⟩ := hwf_f
      have hdump : dumpFields ((k, YVal.str v) :: fs) =
          scalarLine k v :: dumpFields fs := by
        simp [dumpFields]
      rw [hdump]
      have hstep : parseFieldsAux inSeq acc (scalarLine k v :: dumpFields fs) =
          parseFieldsAux false ((k, YVal.str v) :: acc) (dumpFields fs) := by
        simp only [parseFieldsAux, hitem,
          show drop2Sp (scalarLine k v) = some (k ++ ':' :: ' ' :: v) from rfl,
          sfcs_of_append k v hk]
      rw [hstep, ih hwf_fs false ((k, YVal.str v) :: acc)]
      simp
    | seq its =>
      obtain ⟨hk, hitem, _, _⟩ := hwf_f
      have hdump : dumpFields ((k, YVal.seq its) :: fs) =
          seqHeaderLine k :: (its.map itemLine ++ dumpFields fs) := by
        simp [dumpFields]
      rw [hdump]
      have hstep : parseFieldsAux inSeq acc
          (seqHeaderLine k :: (its.map itemLine ++ dumpFields fs)) =
          parseFieldsAux true ((k, YVal.seq []) :: acc)
            (its.map itemLine ++ dumpFields fs) := by
        simp only [parseFieldsAux, hitem,
          show drop2Sp (seqHeaderLine k) = some (k ++ [':']) from rfl,
          hk, unsnocColon_append]
      rw [hstep, parseFieldsAux_items k its [] acc (dumpFields fs)]
      simp only [List.nil_append]
      rw [ih hwf_fs true ((k, YVal.seq its) :: acc)]
      simp

/-- Every field produced by the decoder is well-formed (given newline-free
input lines and a well-formed accumulator). -/
theorem parseFieldsAux_wf (lines : List (List Char)) :
    ∀ (inSeq : Bool) (acc m : List (List Char × YVal)),
    parseFieldsAux inSeq acc lines = some m →
    (∀ l ∈ lines, '\n' ∉ l) → (∀ f ∈ acc, FieldWF f) → ∀ f ∈ m, FieldWF f := by
  induction lines with
  | nil =>
    intro inSeq acc m h _ hacc f hf
    simp only [parseFieldsAux] at h
    rw [← Option.some.inj h] at hf
    exact hacc f (List.mem_reverse.mp hf)
  | cons l ls ih =>
    intro inSeq acc m h hNL hacc
    have hNLl : '\n' ∉ l := hNL l (List.mem_cons_self l ls)
    have hNLls : ∀ l2 ∈ ls, '\n' ∉ l2 := fun l2 hl2 => hNL l2 (List.mem_cons_of_mem l hl2)
    simp only [parseFieldsAux] at h
    cases hib : itemBody l with
    | some i =>
      simp only [hib] at h
      have hline : l = itemLine i := itemBody_sound l i hib
      cases inSeq with
      | false => simp at h
      | true =>
        cases acc with
        | nil => simp at h
        | cons f0 accRest =>
          obtain ⟨k0, val0⟩ := f0
          cases val0 with
          | str v0 => simp at h
          | seq its0 =>
            simp only at h
            refine ih true ((k0, YVal.seq (its0 ++ [i])) :: accRest) m h hNLls ?_
            intro f hf
            rcases List.mem_cons.mp hf with rfl | hf2
            · obtain ⟨h1, h2, h3, h4⟩ :=
                hacc (k0, YVal.seq its0) (List.mem_cons_self _ _)
              refine ⟨h1, h2, h3, ?_⟩
              intro j hj
              rcases List.mem_append.mp hj with hj1 | hj2
              · exact h4 j hj1
              · have hji : j = i := List.mem_singleton.mp hj2
                subst hji
                intro hnl
                apply hNLl
                rw [hline]
                unfold itemLine
                simp [hnl]
            · exact hacc f (List.mem_cons_of_mem _ hf2)
    | none =>
      simp only [hib] at h
      cases hd2 : drop2Sp l with
      | none => simp only [hd2] at h; simp at h
      | some r =>
        simp only [hd2] at h
        have hlr : l = ' ' :: ' ' :: r := drop2Sp_sound l r hd2
        cases hs : sfcs r with
        | some kv =>
          simp only [hs] at h
          obtain ⟨hr_eq, hk_none⟩ := sfcs_sound r kv.1 kv.2 hs
          refine ih false ((kv.1, YVal.str kv.2) :: acc) m h hNLls ?_
          intro f hf
          rcases List.mem_cons.mp hf with rfl | hf2
          · refine ⟨hk_none, ?_, ?_, ?_⟩
            · have : scalarLine kv.1 kv.2 = l := by
                rw [hlr, hr_eq]
                rfl
              rw [this]
              exact hib
            · intro hnl
              apply hNLl
              rw [hlr, hr_eq]
              simp [hnl]
            · intro hnl
              apply hNLl
              rw [hlr, hr_eq]
              simp [hnl]
          · exact hacc f hf2
        | none =>
          simp only [hs] at h
          cases hu : unsnocColon r with
          | none => simp only [hu] at h; simp at h
          | some k =>
            simp only [hu] at h
            have hrk : r = k ++ [':'] := unsnocColon_sound r k hu
            refine ih true ((k, YVal.seq []) :: acc) m h hNLls ?_
            intro f hf
            rcases List.mem_cons.mp hf with rfl | hf2
            · refine ⟨by rw [← hrk]; exact hs, ?_, ?_, by simp⟩
              · have : seqHeaderLine k = l := by
                  rw [hlr, hrk]
                  rfl
                rw [this]
                exact hib
              · intro hnl
                apply hNLl
                rw [hlr, hrk]
                simp [hnl]
            · exact hacc f hf2

/-- Grouping a fully indented block yields one section. -/
theorem groupAux_all_indented (ls : List (List Char)) :
    ∀ (k : List Char) (body : List (List Char)),
    (∀ l ∈ ls, l.head? = some ' ') →
    groupAux k body ls = some [(k, body ++ ls)] := by
  induction ls with
  | nil => intro k body _; simp [groupAux]
  | cons l ls2 ih =>
    intro k body h
    have hl : l.head? = some ' ' := h l (List.mem_cons_self l ls2)
    simp only [groupAux, hl, if_true]
    rw [ih k (body ++ [l]) (fun x hx => h x (List.mem_cons_of_mem l hx))]
    simp

/-- Every body line of a group comes from the initial body or the input. -/
theorem groupAux_mem (ls : List (List Char)) :
    ∀ (k : List Char) (body : List (List Char)) gs,
    groupAux k body ls = some gs →
    ∀ g ∈ gs, ∀ l ∈ g.2, l ∈ body ∨ l ∈ ls := by
  induction ls with
  | nil =>
    intro k body gs h g hg l hl
    simp only [groupAux] at h
    rw [← Option.some.inj h] at hg
    have : g = (k, body) := List.mem_singleton.mp hg
    rw [this] at hl
    exact Or.inl hl
  | cons l0 ls2 ih =>
    intro k body gs h g hg l hl
    by_cases hh : l0.head? = some ' '
    · simp only [groupAux, hh, if_true] at h
      rcases ih k (body ++ [l0]) gs h g hg l hl with h1 | h2
      · rcases List.mem_append.mp h1 with h3 | h4
        · exact Or.inl h3
        · exact Or.inr (List.mem_cons.mpr (Or.inl (List.mem_singleton.mp h4)))
      · exact Or.inr (List.mem_cons_of_mem l0 h2)
    · simp only [groupAux, hh, if_false] at h
      cases hsk : sectionKey l0 with
      | none => simp only [hsk] at h; simp at h
      | some k2 =>
        simp only [hsk] at h
        cases hg2 : groupAux k2 [] ls2 with
        | none => simp only [hg2] at h; simp at h
        | some gs2 =>
          simp only [hg2] at h
          have hgs : (k, body) :: gs2 = gs := by simpa using h
          rw [← hgs] at hg
          rcases List.mem_cons.mp hg with rfl | hgs2
          · exact Or.inl hl
          · rcases ih k2 [] gs2 hg2 g hgs2 l hl with h1 | h2
            · cases h1
            · exact Or.inr (List.mem_cons_of_mem l0 h2)

/-- `mapM` over `Option` only returns elements produced from inputs. -/
theorem mapM_option_mem {α β : Type} (f : α → Option β) :
    ∀ (l : List α) (res : List β), l.mapM f = some res →
    ∀ b ∈ res, ∃ a ∈ l, f a = some b := by
  intro l
  induction l with
  | nil =>
    intro res h b hb
    simp only [List.mapM_nil, Option.pure_def, Option.some.injEq] at h
    rw [← h] at hb
    cases hb
  | cons a t ih =>
    intro res h b hb
    rw [List.mapM_cons] at h
    cases hfa : f a with
    | none => rw [hfa] at h; simp at h
    | some b0 =>
      rw [hfa] at h
      cases hmt : t.mapM f with
      | none => rw [hmt] at h; simp at h
      | some bs =>
        rw [hmt] at h
        have hres : b0 :: bs = res := by simpa using h
        rw [← hres] at hb
        rcases List.mem_cons.mp hb with rfl | hb2
        · exact ⟨a, List.mem_cons_self a t, hfa⟩
        · obtain ⟨a2, ha2, hfa2⟩ := ih bs hmt b hb2
          exact ⟨a2, List.mem_cons_of_mem a ha2, hfa2⟩

/-- Dumped field lines all start with a space. -/
theorem dumpFields_head_sp (m : List (List Char × YVal)) :
    ∀ l ∈ dumpFields m, l.head? = some ' ' := by
  intro l hl
  unfold dumpFields at hl
  obtain ⟨f, _, hlf⟩ := List.mem_bind.mp hl
  obtain ⟨k, val⟩ := f
  cases val with
  | str v =>
    have : l = scalarLine k v := List.mem_singleton.mp hlf
    rw [this]
    rfl
  | seq its =>
    rcases List.mem_cons.mp hlf with rfl | hlf2
    · rfl
    · obtain ⟨i, _, hi⟩ := List.mem_map.mp hlf2
      rw [← hi]
      rfl

/-- Dumped field lines are never the `---` delimiter. -/
theorem dumpFields_ne_dashes (m : List (List Char × YVal)) :
    ∀ l ∈ dumpFields m, l ≠ dashes := by
  intro l hl he
  have := dumpFields_head_sp m l hl
  rw [he] at this
  simp [dashes] at this

/-- Dumped field lines of a well-formed section are newline-free. -/
theorem dumpFields_noNL (m : List (List Char × YVal)) (hwf : MetaWF m) :
    ∀ l ∈ dumpFields m, '\n' ∉ l := by
  intro l hl
  unfold dumpFields at hl
  obtain ⟨f, hf, hlf⟩ := List.mem_bind.mp hl
  have hwf_f := hwf f hf
  obtain ⟨k, val⟩ := f
  cases val with
  | str v =>
    obtain ⟨_, _, hk, hv⟩ := hwf_f
    have : l = scalarLine k v := List.mem_singleton.mp hlf
    rw [this]
    unfold scalarLine
    intro hmem
    rcases List.mem_cons.mp hmem with h1 | hmem2
    · cases h1
    · rcases List.mem_cons.mp hmem2 with h1 | hmem3
      · cases h1
      · rcases List.mem_append.mp hmem3 with h1 | h2
        · exact hk h1
        · rcases List.mem_cons.mp h2 with h3 | h4
          · cases h3
          · rcases List.mem_cons.mp h4 with h5 | h6
            · cases h5
            · exact hv h6
  | seq its =>
    obtain ⟨_, _, hk, hits⟩ := hwf_f
    rcases List.mem_cons.mp hlf with rfl | hlf2
    · unfold seqHeaderLine
      intro hmem
      rcases List.mem_cons.mp hmem with h1 | hmem2
      · cases h1
      · rcases List.mem_cons.mp hmem2 with h1 | hmem3
        · cases h1
        · rcases List.mem_append.mp hmem3 with h1 | h2
          · exact hk h1
          · rcases List.mem_singleton.mp h2 with h3
            cases h3
    · obtain ⟨i, hi, hlef⟩ := List.mem_map.mp hlf2
      rw [← hlef]
      unfold itemLine
      intro hmem
      simp only [List.mem_cons] at hmem
      rcases hmem with h1 | h1 | h1 | h1 | h1 | h1 | h1
      · cases h1
      · cases h1
      · cases h1
      · cases h1
      · cases h1
      · cases h1
      · exact hits i hi h1

/-- Decoding the dumped `{agent: metadata}` document yields exactly the
`agent` section. -/
theorem parseDoc_dump (m : List (List Char × YVal)) (hwf : MetaWF m) :
    parseDoc ("agent:".data :: dumpFields m) = some [("agent".data, m)] := by
  have hsec : sectionKey "agent:".data = some "agent".data := by decide
  simp only [parseDoc, hsec]
  rw [groupAux_all_indented (dumpFields m) "agent".data [] (dumpFields_head_sp m)]
  simp only [List.nil_append]
  have hpf : parseFields (dumpFields m) = some m := by
    unfold parseFields
    rw [parseFieldsAux_dump m hwf false []]
    rfl
  simp [List.mapM, List.mapM.loop, hpf]

/-- Every section produced by `parseDoc` from newline-free lines is
well-formed. -/
theorem parseDoc_wf (lines : List (List Char))
    (doc : List (List Char × List (List Char × YVal)))
    (h : parseDoc lines = some doc) (hNL : ∀ l ∈ lines, '\n' ∉ l) :
    ∀ s ∈ doc, MetaWF s.2 := by
  intro s hs
  unfold parseDoc at h
  cases lines with
  | nil =>
    rw [← Option.some.inj h] at hs
    cases hs
  | cons l0 ls =>
    cases hsk : sectionKey l0 with
    | none => simp only [hsk] at h; simp at h
    | some k =>
      simp only [hsk] at h
      cases hg : groupAux k [] ls with
      | none => simp only [hg] at h; simp at h
      | some gs =>
        simp only [hg] at h
        obtain ⟨g, hgmem, hfg⟩ := mapM_option_mem _ gs doc h s hs
        cases hpf : parseFields g.2 with
        | none => simp only [hpf] at hfg; simp at hfg
        | some fs =>
          simp only [hpf] at hfg
          have hfg2 : (g.1, fs) = s := by simpa using hfg
          have hs2 : s.2 = fs := by rw [← hfg2]
          rw [hs2]
          unfold parseFields at hpf
          refine parseFieldsAux_wf g.2 false [] fs hpf ?_ (by simp)
          intro l2 hl2
          rcases groupAux_mem ls k [] gs hg g hgmem l2 hl2 with h1 | h2
          · cases h1
          · exact hNL l2 (List.mem_cons_of_mem l0 h2)

/-- `splitLinesChars` never returns an empty line list. -/
theorem splitLines_ne_nil (cs : List Char) : splitLinesChars cs ≠ [] := by
  cases cs with
  | nil => simp [splitLinesChars]
  | cons c cs2 =>
    simp only [splitLinesChars]
    cases splitLinesChars cs2 with
    | nil => simp
    | cons h t => by_cases hc : c = '\n' <;> simp [hc]

/-- Joining split lines recovers the text. -/
theorem joinLines_splitLines (cs : List Char) :
    joinLinesChars (splitLinesChars cs) = cs := by
  induction cs with
  | nil => rfl
  | cons c cs2 ih =>
    simp only [splitLinesChars]
    cases hs : splitLinesChars cs2 with
    | nil => exact absurd hs (splitLines_ne_nil cs2)
    | cons h t =>
      rw [hs] at ih
      by_cases hc : c = '\n'
      · subst hc
        simp only [if_true]
        show '\n' :: joinLinesChars (h :: t) = '\n' :: cs2
        rw [ih]
      · simp only [hc, if_false]
        cases t with
        | nil =>
          show c :: h = c :: cs2
          simp only [joinLinesChars] at ih
          rw [ih]
        | cons h2 t2 =>
          show (c :: h) ++ '\n' :: joinLinesChars (h2 :: t2) = c :: cs2
          simp only [joinLinesChars] at ih
          simp [← ih]

/-- Split lines are newline-free. -/
theorem splitLines_noNL (cs : List Char) :
    ∀ l ∈ splitLinesChars cs, '\n' ∉ l := by
  induction cs with
  | nil => intro l hl; simp [splitLinesChars] at hl; simp [hl]
  | cons c cs2 ih =>
    intro l hl
    simp only [splitLinesChars] at hl
    cases hs : splitLinesChars cs2 with
    | nil => exact absurd hs (splitLines_ne_nil cs2)
    | cons h t =>
      rw [hs] at hl
      have ih2 := fun l2 hl2 => ih l2 (hs ▸ hl2)
      by_cases hc : c = '\n'
      · subst hc
        simp only [if_true] at hl
        rcases List.mem_cons.mp hl with rfl | hl2
        · simp
        · exact ih2 l hl2
      · simp only [hc, if_false] at hl
        rcases List.mem_cons.mp hl with rfl | hl2
        · intro hmem
          rcases List.mem_cons.mp hmem with h1 | h2
          · exact hc h1.symm
          · exact ih2 h (List.mem_cons_self h t) h2
        · exact ih2 l (List.mem_cons_of_mem h hl2)

/-- Splitting a newline-free line yields that single line. -/
theorem splitLines_of_noNL (l : List Char) (h : '\n' ∉ l) :
    splitLinesChars l = [l] := by
  induction l with
  | nil => rfl
  | cons c t ih =>
    have hc : c ≠ '\n' := fun e => h (e ▸ List.mem_cons_self c t)
    have ht : '\n' ∉ t := fun e => h (List.mem_cons_of_mem c e)
    simp only [splitLinesChars, ih ht]
    simp [hc]

/-- Splitting after a newline-free first line splits off that line. -/
theorem splitLines_append_newline (l rest : List Char) (h : '\n' ∉ l) :
    splitLinesChars (l ++ '\n' :: rest) = l :: splitLinesChars rest := by
  induction l with
  | nil =>
    simp only [List.nil_append, splitLinesChars]
    cases hs : splitLinesChars rest with
    | nil => exact absurd hs (splitLines_ne_nil rest)
    | cons h2 t2 => simp
  | cons c t ih =>
    have hc : c ≠ '\n' := fun e => h (e ▸ List.mem_cons_self c t)
    have ht : '\n' ∉ t := fun e => h (List.mem_cons_of_mem c e)
    simp only [List.cons_append, splitLinesChars]
    have ih2 : splitLinesChars (t.append ('\n' :: rest)) = t :: splitLinesChars rest :=
      ih ht
    rw [ih2]
    simp [hc]

/-- Splitting joined newline-free lines recovers them. -/
theorem splitLines_joinLines (L : List (List Char)) (hne : L ≠ [])
    (h : ∀ l ∈ L, '\n' ∉ l) : splitLinesChars (joinLinesChars L) = L := by
  induction L with
  | nil => exact absurd rfl hne
  | cons l t ih =>
    cases t with
    | nil =>
      show splitLinesChars (joinLinesChars [l]) = [l]
      simp only [joinLinesChars]
      exact splitLines_of_noNL l (h l (List.mem_cons_self l []))
    | cons l2 t2 =>
      show splitLinesChars (l ++ '\n' :: joinLinesChars (l2 :: t2)) = l :: l2 :: t2
      rw [splitLines_append_newline l _ (h l (List.mem_cons_self _ _))]
      rw [ih (by simp) (fun x hx => h x (List.mem_cons_of_mem l hx))]

/-- Appending an empty final line appends a newline to the join. -/
theorem joinLines_append_empty (L : List (List Char)) (hne : L ≠ []) :
    joinLinesChars (L ++ [[]]) = joinLinesChars L ++ ['\n'] := by
  induction L with
  | nil => exact absurd rfl hne
  | cons l t ih =>
    cases t with
    | nil => rfl
    | cons l2 t2 =>
      show l ++ '\n' :: joinLinesChars ((l2 :: t2) ++ [[]]) =
        (l ++ '\n' :: joinLinesChars (l2 :: t2)) ++ ['\n']
      rw [ih (by simp)]
      simp

/-- `dropWhile` is idempotent. -/
theorem dropWhile_idem (p : α → Bool) (l : List α) :
    (l.dropWhile p).dropWhile p = l.dropWhile p := by
  induction l with
  | nil => rfl
  | cons a t ih =>
    by_cases hp : p a
    · simp [List.dropWhile_cons, hp, ih]
    · simp [List.dropWhile_cons, hp]

/-- `dropTrailingWs` is idempotent. -/
theorem dropTrailing_idem (cs : List Char) :
    dropTrailingWs (dropTrailingWs cs) = dropTrailingWs cs := by
  simp [dropTrailingWs, List.reverse_reverse, dropWhile_idem]

/-- Dropping leading whitespace preserves having no trailing whitespace. -/
theorem dropTrailing_dropLeading (Y : List Char) (hY : dropTrailingWs Y = Y) :
    dropTrailingWs (dropLeadingWs Y) = dropLeadingWs Y := by
  obtain ⟨pre, hpre⟩ : ∃ pre, pre ++ dropLeadingWs Y = Y :=
    List.dropWhile_suffix isWsChar
  have hrev : (dropLeadingWs Y).reverse ++ pre.reverse = Y.reverse := by
    rw [← List.reverse_append, hpre]
  have hY2 : Y.reverse.dropWhile isWsChar = Y.reverse := by
    have := congrArg List.reverse hY
    rw [dropTrailingWs, List.reverse_reverse] at this
    exact this
  cases hX : (dropLeadingWs Y).reverse with
  | nil =>
    have : dropLeadingWs Y = [] := by
      have := congrArg List.reverse hX
      rwa [List.reverse_reverse] at this
    rw [this]
    rfl
  | cons c t =>
    have hXfull : dropLeadingWs Y = (c :: t).reverse := by
      have := congrArg List.reverse hX
      rwa [List.reverse_reverse] at this
    have hYrev : Y.reverse = c :: (t ++ pre.reverse) := by
      rw [← hrev, hX]
      simp
    have hwc : isWsChar c = false := by
      rcases hb : isWsChar c with _ | _
      · rfl
      · exfalso
        rw [hYrev, List.dropWhile_cons, hb, if_pos rfl] at hY2
        have hle : ((t ++ pre.reverse).dropWhile isWsChar).length ≤
            (t ++ pre.reverse).length := (List.dropWhile_sublist _).length_le
        rw [hY2] at hle
        simp at hle
    rw [dropTrailingWs, hX, List.dropWhile_cons, hwc]
    simp only [Bool.false_eq_true, if_false]
    rw [← hX, List.reverse_reverse]

/-- `jsTrimChars` is idempotent. -/
theorem jsTrim_idem (cs : List Char) :
    jsTrimChars (jsTrimChars cs) = jsTrimChars cs := by
  show dropLeadingWs (dropTrailingWs (dropLeadingWs (dropTrailingWs cs))) =
    dropLeadingWs (dropTrailingWs cs)
  rw [dropTrailing_dropLeading (dropTrailingWs cs) (dropTrailing_idem cs)]
  exact dropWhile_idem isWsChar _

/-- Trimming absorbs a trailing newline. -/
theorem jsTrim_append_newline (cs : List Char) :
    jsTrimChars (cs ++ ['\n']) = jsTrimChars cs := by
  show dropLeadingWs (dropTrailingWs (cs ++ ['\n'])) =
    dropLeadingWs (dropTrailingWs cs)
  have : dropTrailingWs (cs ++ ['\n']) = dropTrailingWs cs := by
    unfold dropTrailingWs
    rw [List.reverse_append]
    simp [List.dropWhile_cons, isWsChar]
  rw [this]

/-- A successful parse yields well-formed metadata and trimmed content. -/
theorem parse_ok_inv (x : String) (fp : Option String) (af : AgentFile)
    (h : AgentParser.parse x fp = .ok af) :
    MetaWF af.metadata ∧ jsTrimChars af.content = af.content := by
  simp only [AgentParser.parse] at h
  cases hlines : splitLinesChars x.data with
  | nil => simp only [hlines] at h; simp at h
  | cons l0 rest =>
    simp only [hlines] at h
    by_cases h0 : l0 = dashes
    · rw [if_pos h0] at h
      cases hdw : rest.dropWhile (fun l => l ≠ dashes) with
      | nil => simp only [hdw] at h; simp at h
      | cons d bodyLines =>
        simp only [hdw] at h
        cases hpd : parseDoc (rest.takeWhile (fun l => l ≠ dashes)) with
        | none => simp only [hpd] at h; simp at h
        | some doc =>
          simp only [hpd] at h
          cases hfind : doc.find? (fun s => s.1 = "agent".data) with
          | none => simp only [hfind] at h; simp at h
          | some sec =>
            simp only [hfind] at h
            have haf := Except.ok.inj h
            constructor
            · rw [← haf]
              show MetaWF sec.2
              have hsecmem := List.mem_of_find?_eq_some hfind
              refine parseDoc_wf _ doc hpd ?_ sec hsecmem
              intro l2 hl2
              have hl2b : l2 ∈ rest := mem_of_mem_takeWhile _ rest l2 hl2
              have hl2c : l2 ∈ splitLinesChars x.data := by
                rw [hlines]
                exact List.mem_cons_of_mem l0 hl2b
              exact splitLines_noNL x.data l2 hl2c
            · rw [← haf]
              exact jsTrim_idem _
    · rw [if_neg h0] at h; simp at h

/-- Serializing a well-formed agent file and re-parsing it succeeds with
the same metadata and content. -/
theorem serialize_parse (af : AgentFile) (fp2 : Option String)
    (hwf : MetaWF af.metadata) (hc : jsTrimChars af.content = af.content) :
    AgentParser.parse (AgentParser.serialize af) fp2 =
      .ok { metadata := af.metadata, content := af.content,
            rawContent := (AgentParser.serialize af).data, filePath := fp2 } := by
  have hNL : ∀ l ∈ (dashes :: ("agent:".data :: dumpFields af.metadata) ++
      dashes :: splitLinesChars af.content ++ [[]]), '\n' ∉ l := by
    intro l hl
    rcases List.mem_append.mp hl with hl1 | hl2
    · rcases List.mem_append.mp hl1 with hl3 | hl4
      · rcases List.mem_cons.mp hl3 with rfl | hl5
        · decide
        · rcases List.mem_cons.mp hl5 with rfl | hl6
          · decide
          · exact dumpFields_noNL af.metadata hwf l hl6
      · rcases List.mem_cons.mp hl4 with rfl | hl7
        · decide
        · exact splitLines_noNL af.content l hl7
    · rcases List.mem_singleton.mp hl2 with rfl
      simp
  have hsplit : splitLinesChars (AgentParser.serialize af).data =
      dashes :: ("agent:".data :: dumpFields af.metadata) ++
        dashes :: splitLinesChars af.content ++ [[]] := by
    show splitLinesChars (joinLinesChars _) = _
    exact splitLines_joinLines _ (by simp) hNL
  have hares : ∀ l ∈ "agent:".data :: dumpFields af.metadata,
      (fun l2 : List Char => decide (l2 ≠ dashes)) l = true := by
    intro l hl
    rcases List.mem_cons.mp hl with rfl | hl2
    · decide
    · simpa using dumpFields_ne_dashes af.metadata l hl2
  have hassoc : "agent:".data :: (dumpFields af.metadata ++
      dashes :: (splitLinesChars af.content ++ [[]])) =
      ("agent:".data :: dumpFields af.metadata) ++
        (dashes :: (splitLinesChars af.content ++ [[]])) := by
    simp
  have htw : List.takeWhile (fun l => l ≠ dashes)
      ("agent:".data :: (dumpFields af.metadata ++
        dashes :: (splitLinesChars af.content ++ [[]]))) =
      "agent:".data :: dumpFields af.metadata := by
    rw [hassoc, takeWhile_append_all _ _ _ hares]
    simp [List.takeWhile_cons]
  have hdw : List.dropWhile (fun l => l ≠ dashes)
      ("agent:".data :: (dumpFields af.metadata ++
        dashes :: (splitLinesChars af.content ++ [[]]))) =
      dashes :: (splitLinesChars af.content ++ [[]]) := by
    rw [hassoc, dropWhile_append_all _ _ _ hares]
    simp [List.dropWhile_cons]
  have hcontent : jsTrimChars (joinLinesChars (splitLinesChars af.content ++ [[]])) =
      af.content := by
    rw [joinLines_append_empty _ (splitLines_ne_nil af.content),
      joinLines_splitLines af.content, jsTrim_append_newline, hc]
  have hfind : ([("agent".data, af.metadata)].find?
      (fun s => s.1 = "agent".data)) = some ("agent".data, af.metadata) := by
    simp [List.find?]
  simp only [AgentParser.parse, hsplit, List.cons_append, List.append_assoc, if_true]
  simp only [htw, hdw, parseDoc_dump af.metadata hwf, hfind, hcontent]

/-- **C2**: for every input text accepted by `parse`, serializing the
parsed file and re-parsing yields the identical metadata and the identical
(already trimmed) content. -/
theorem c2_parse_serialize_roundtrip (x : String) (fp fp2 : Option String)
    (af : AgentFile) (h : AgentParser.parse x fp = .ok af) :
    AgentParser.parse (AgentParser.serialize af) fp2 =
      .ok { metadata := af.metadata, content := af.content,
            rawContent := (AgentParser.serialize af).data, filePath := fp2 } := by
  obtain ⟨hwf, hc⟩ := parse_ok_inv x fp af h
  exact serialize_parse af fp2 hwf hc

/-- **C2** witness. -/
theorem c2_roundtrip_witness :
    AgentParser.parse xRound none = .ok afRound ∧
    AgentParser.parse (AgentParser.serialize afRound) none =
      .ok { metadata := afRound.metadata, content := afRound.content,
            rawContent := (AgentParser.serialize afRound).data, filePath := none } :=
  ⟨by decide, c2_parse_serialize_roundtrip xRound none none afRound (by decide)⟩

end AgentSpec
